import Mathlib

/-!
# Verification of the Sportpesa_scraper alias-resolution core

A shallow embedding of `Utils/alias_utils.py`, `Utils/alias_utils_tournaments.py`,
`Utils/alias_kv.py` and the administrative commands of `Utils/alias_review_cli.py`.
Strings are modelled as lists of characters (`Str`).  Python's `re` passes are
modelled by direct scanners over the character list, specialised to the exact
patterns compiled in the source.  Unicode-wide behaviour (NFKD decomposition,
Unicode word characters, Unicode lower-casing) is modelled on ASCII plus a fixed
table of Latin accented letters, which covers every string manipulated here.
-/

namespace AliasCore

/-- Strings of the embedded program: lists of characters. -/
abbrev Str := List Char

/-- Coerce a Lean string literal into the model's string type. -/
def str (s : String) : Str := s.data

/-! ## Character classes -/

/-- Python `\s` (whitespace), restricted to the ASCII whitespace characters. -/
def isWsChar (c : Char) : Bool :=
  c = ' ' || c = '\t' || c = '\n' || c = '\r' || c = '\x0b' || c = '\x0c'

def isAsciiUpper (c : Char) : Bool := 'A' ≤ c && c ≤ 'Z'
def isAsciiLower (c : Char) : Bool := 'a' ≤ c && c ≤ 'z'
def isAsciiLetter (c : Char) : Bool := isAsciiUpper c || isAsciiLower c
def isAsciiDigit (c : Char) : Bool := '0' ≤ c && c ≤ '9'

/-- Table of precomposed accented letters handled by the model:
`(letter, accent-stripped form, lower-cased form)`.  This stands in for
`unicodedata.normalize("NFKD", ·)` + combining-mark removal and for
Unicode-aware `str.lower()` on the alphabets that occur in the data. -/
def accentTable : List (Char × Char × Char) :=
  [ ('á', 'a', 'á'), ('é', 'e', 'é'), ('í', 'i', 'í'), ('ó', 'o', 'ó'),
    ('ú', 'u', 'ú'), ('ñ', 'n', 'ñ'), ('ü', 'u', 'ü'), ('ç', 'c', 'ç'),
    ('è', 'e', 'è'), ('ö', 'o', 'ö'), ('ä', 'a', 'ä'),
    ('Á', 'A', 'á'), ('É', 'E', 'é'), ('Í', 'I', 'í'), ('Ó', 'O', 'ó'),
    ('Ú', 'U', 'ú'), ('Ñ', 'N', 'ñ'), ('Ü', 'U', 'ü'), ('Ç', 'C', 'ç'),
    ('È', 'E', 'è'), ('Ö', 'O', 'ö'), ('Ä', 'A', 'ä') ]

def isAccentLetter (c : Char) : Bool := accentTable.any (fun t => t.1 = c)

/-- `_strip_acc` / `_strip_accents` on one character. -/
def stripAccChar (c : Char) : Char :=
  match accentTable.find? (fun t => t.1 = c) with
  | some t => t.2.1
  | none => c

/-- Unicode-aware `str.lower()` on one character (ASCII + accent table). -/
def lowerChar (c : Char) : Char :=
  if isAsciiUpper c then Char.ofNat (c.toNat + 32)
  else match accentTable.find? (fun t => t.1 = c) with
       | some t => t.2.2
       | none => c

/-- `str.upper()` on one ASCII character (used by `str.title()`). -/
def upperChar (c : Char) : Char :=
  if isAsciiLower c then Char.ofNat (c.toNat - 32) else c

/-- Python `\w` (`re.UNICODE`), restricted to ASCII alphanumerics, `_`,
and the accented letters of the table. -/
def isWordChar (c : Char) : Bool :=
  isAsciiLetter c || isAsciiDigit c || c = '_' || isAccentLetter c

/-! ## Basic string operations -/

/-- `str.lower()`. -/
def toLowerStr (l : Str) : Str := l.map lowerChar

/-- `_strip_acc(s)` / `_strip_accents(s)`. -/
def stripAcc (l : Str) : Str := l.map stripAccChar

/-- Python `str.strip()` (no arguments): trim whitespace from both ends. -/
def trimWs (l : Str) : Str :=
  ((l.dropWhile isWsChar).reverse.dropWhile isWsChar).reverse

/-- `_key(s) = (s or "").strip().lower()`. -/
def pkey (l : Str) : Str := toLowerStr (trimWs l)

/-- Python `str.title()`: upper-case every letter that starts an alphabetic
run, lower-case the other letters.  Helper carrying the previous-is-alpha flag. -/
def pyTitleGo (prevAlpha : Bool) : Str → Str
  | [] => []
  | c :: rest =>
    if isAsciiLetter c || isAccentLetter c then
      (if prevAlpha then lowerChar c else upperChar c) :: pyTitleGo true rest
    else
      c :: pyTitleGo false rest

def pyTitle (l : Str) : Str := pyTitleGo false l

/-- Helper for `splitRuns`: `cur` is the current token, reversed. -/
def splitRunsGo (p : Char → Bool) (cur : Str) : Str → List Str
  | [] => if cur = [] then [] else [cur.reverse]
  | c :: rest =>
    if p c then
      if cur = [] then splitRunsGo p [] rest
      else cur.reverse :: splitRunsGo p [] rest
    else splitRunsGo p (c :: cur) rest

/-- Split a string on runs of separator characters, dropping empty pieces
(the behaviour of `re.split(r"[sep]+")` composed with the truthiness filter,
and of `str.split()` for the whitespace predicate). -/
def splitRuns (p : Char → Bool) (l : Str) : List Str := splitRunsGo p [] l

/-- Python `str.split()` (whitespace split, empties dropped). -/
def splitWs (l : Str) : List Str := splitRuns isWsChar l

/-- `" ".join(toks)`. -/
def joinSpace (toks : List Str) : Str :=
  match toks with
  | [] => []
  | t :: rest => t ++ (rest.flatMap (fun u => ' ' :: u))

/-- Helper for `dedupKeepFirst`, carrying the set of elements already seen. -/
def dedupGo (seen : List Str) : List Str → List Str
  | [] => []
  | a :: rest => if a ∈ seen then dedupGo seen rest else a :: dedupGo (a :: seen) rest

/-- Keep the first occurrence of each element (models materialising a Python
set in insertion order; the source's actual iteration order over a `set` is
hash-dependent, which theorem C8 treats explicitly). -/
def dedupKeepFirst (l : List Str) : List Str := dedupGo [] l

/-- Lexicographic comparison of strings by code point (Python `<` on `str`). -/
def leStr : Str → Str → Bool
  | [], _ => true
  | _ :: _, [] => false
  | a :: as_, b :: bs => if a = b then leStr as_ bs else decide (a < b)

def insertSorted (x : Str) : List Str → List Str
  | [] => [x]
  | y :: rest => if leStr x y then x :: y :: rest else y :: insertSorted x rest

def insertionSort : List Str → List Str
  | [] => []
  | x :: rest => insertSorted x (insertionSort rest)

/-- Python `sorted(set(l))`. -/
def sortDedup (l : List Str) : List Str := insertionSort (dedupKeepFirst l)

/-! ## `_clean_display_name`

The source pipeline is
1. drop `​`, unify dashes (`–`,`—` → `-`) and quotes (`’`,`` ` `` → `'`);
2. `_CLEAN_RE.sub(" ", s)` — the noise-pattern alternation, scanned left to
   right, alternatives tried in the compiled order;
3. `re.sub(r"[^\w\s\-\.,/']", " ", s)` — the character filter;
4. collapse whitespace runs and strip the characters space, comma, dot, dash, slash.
-/

/-- Step 1: character unification (`​` removed, dash/quote variants). -/
def preChar (c : Char) : Option Char :=
  if c = '\u200B' then none
  else if c = '–' || c = '—' then some '-'
  else if c = '’' || c = '`' then some '\''
  else some c

def preClean (l : Str) : Str := l.filterMap preChar

/-- Length of the maximal prefix satisfying `p`. -/
def countWhile (p : Char → Bool) : Str → Nat
  | [] => 0
  | c :: rest => if p c then countWhile p rest + 1 else 0

/-- Emoji / flag characters of the `_CLEAN_PATTERNS` character class
(the listed glyphs, their variation selectors / joiners, and the regional
indicator range `🇦-🇿`). -/
def isEmojiChar (c : Char) : Bool :=
  c.toNat = 0x1F7E2 || c.toNat = 0x1F534 || c.toNat = 0x1F7E1 ||
  c.toNat = 0x26AA || c.toNat = 0xFE0F || c.toNat = 0x2B50 ||
  c.toNat = 0x1F3F3 || c.toNat = 0x200D || c.toNat = 0x1F308 ||
  (0x1F1E6 ≤ c.toNat && c.toNat ≤ 0x1F1FF)

/-- Case-insensitive match of an ASCII literal word (Python `re.IGNORECASE`). -/
def matchWordICase : Str → Str → Option Str
  | [], rest => some rest
  | _ :: _, [] => none
  | w :: ws, c :: rest => if lowerChar c = w then matchWordICase ws rest else none

/-- `\[[A-Z]{1,3}\]` (with `IGNORECASE`: any ASCII letters). -/
def matchBracketTag : Str → Option Nat
  | '[' :: rest =>
    let n := countWhile isAsciiLetter rest
    if 1 ≤ n && n ≤ 3 then
      match (rest.drop n).head? with
      | some ']' => some (n + 2)
      | _ => none
    else none
  | _ => none

/-- `\(\s*[A-Z]{2,3}\s*\)` (with `IGNORECASE`). -/
def matchParenCode : Str → Option Nat
  | '(' :: rest =>
    let w1 := countWhile isWsChar rest
    let r2 := rest.drop w1
    let n := countWhile isAsciiLetter r2
    if 2 ≤ n && n ≤ 3 then
      let r3 := r2.drop n
      let w2 := countWhile isWsChar r3
      match (r3.drop w2).head? with
      | some ')' => some (1 + w1 + n + w2 + 1)
      | _ => none
    else none
  | _ => none

/-- `\(\s*[Ww][Cc]\s*\)`. -/
def matchParenWC : Str → Option Nat
  | '(' :: rest =>
    let w1 := countWhile isWsChar rest
    match rest.drop w1 with
    | a :: b :: r3 =>
      if (a = 'W' || a = 'w') && (b = 'C' || b = 'c') then
        let w2 := countWhile isWsChar r3
        match (r3.drop w2).head? with
        | some ')' => some (1 + w1 + 2 + w2 + 1)
        | _ => none
      else none
    | _ => none
  | _ => none

/-- `\(\s*[Qq]\s*\)`. -/
def matchParenQ : Str → Option Nat
  | '(' :: rest =>
    let w1 := countWhile isWsChar rest
    match rest.drop w1 with
    | a :: r3 =>
      if a = 'Q' || a = 'q' then
        let w2 := countWhile isWsChar r3
        match (r3.drop w2).head? with
        | some ')' => some (1 + w1 + 1 + w2 + 1)
        | _ => none
      else none
    | _ => none
  | _ => none

/-- `#\s*\d+`. -/
def matchHashNum : Str → Option Nat
  | '#' :: rest =>
    let w := countWhile isWsChar rest
    let d := countWhile isAsciiDigit (rest.drop w)
    if 1 ≤ d then some (1 + w + d) else none
  | _ => none

/-- Is there a word boundary at a position whose preceding character is
`prev` and whose following text starts with a word character? -/
def boundaryBefore (prev : Option Char) : Bool :=
  match prev with
  | none => true
  | some c => !isWordChar c

/-- Does a word boundary follow the matched text (next char non-word / end)? -/
def boundaryAfter (rest : Str) : Bool :=
  match rest.head? with
  | none => true
  | some c => !isWordChar c

/-- `\bseed\s*\d+\b` (with `IGNORECASE`). -/
def matchSeedNum (prev : Option Char) (l : Str) : Option Nat :=
  if boundaryBefore prev then
    match matchWordICase (str "seed") l with
    | some rest =>
      let w := countWhile isWsChar rest
      let d := countWhile isAsciiDigit (rest.drop w)
      if 1 ≤ d && boundaryAfter ((rest.drop w).drop d) then some (4 + w + d)
      else none
    | none => none
  else none

/-- `\b<word>\b` (with `IGNORECASE`), for `qualifier`/`retired`/`walkover`. -/
def matchBareWord (w : Str) (prev : Option Char) (l : Str) : Option Nat :=
  if boundaryBefore prev then
    match matchWordICase w l with
    | some rest => if boundaryAfter rest then some w.length else none
    | none => none
  else none

/-- The emoji class, one or more. -/
def matchEmoji (l : Str) : Option Nat :=
  let n := countWhile isEmojiChar l
  if 1 ≤ n then some n else none

/-- `\s{2,}`. -/
def matchWs2 (l : Str) : Option Nat :=
  let n := countWhile isWsChar l
  if 2 ≤ n then some n else none

/-- Try the `_CLEAN_PATTERNS` alternatives in their compiled order at the
current position. -/
def matchCleanAt (prev : Option Char) (l : Str) : Option Nat :=
  (matchBracketTag l).orElse fun _ =>
  (matchParenCode l).orElse fun _ =>
  (matchParenWC l).orElse fun _ =>
  (matchParenQ l).orElse fun _ =>
  (matchHashNum l).orElse fun _ =>
  (matchSeedNum prev l).orElse fun _ =>
  (matchBareWord (str "qualifier") prev l).orElse fun _ =>
  (matchBareWord (str "retired") prev l).orElse fun _ =>
  (matchBareWord (str "walkover") prev l).orElse fun _ =>
  (matchEmoji l).orElse fun _ =>
  matchWs2 l

/-- `_CLEAN_RE.sub(" ", s)`: scan left to right, replacing each leftmost
match with a single space.  Every alternative consumes at least one
character, so `fuel = length` suffices; `prev` is the last character of the
original text before the scan position (used by `\b`). -/
def cleanSubGo : Nat → Option Char → Str → Str
  | 0, _, l => l
  | _ + 1, _, [] => []
  | fuel + 1, prev, c :: rest =>
    match matchCleanAt prev (c :: rest) with
    | some n =>
      ' ' :: cleanSubGo fuel (((c :: rest).take n).getLast?) ((c :: rest).drop n)
    | none => c :: cleanSubGo fuel (some c) rest

def cleanSub (l : Str) : Str := cleanSubGo l.length none l

/-- The character class kept by `re.sub(r"[^\w\s\-\.,/']", " ", s)`. -/
def isAllowedChar (c : Char) : Bool :=
  isWordChar c || isWsChar c || c = '-' || c = '.' || c = ',' || c = '/' || c = '\''

/-- The character filter: every disallowed character becomes a space. -/
def charFilter (l : Str) : Str :=
  l.map (fun c => if isAllowedChar c then c else ' ')

/-- Pending-whitespace state while collapsing: nothing pending, a single
whitespace character pending (kept verbatim), or a run of two or more
pending (replaced by one space). -/
inductive WsRun where
  | empty : WsRun
  | one : Char → WsRun
  | many : WsRun
deriving DecidableEq, Repr

def wsFlush : WsRun → Str
  | .empty => []
  | .one c => [c]
  | .many => [' ']

def wsPush : WsRun → Char → WsRun
  | .empty, c => .one c
  | .one _, _ => .many
  | .many, _ => .many

def collapseGo : WsRun → Str → Str
  | st, [] => wsFlush st
  | st, c :: rest =>
    if isWsChar c then collapseGo (wsPush st c) rest
    else wsFlush st ++ c :: collapseGo .empty rest

/-- `re.sub(r"\s{2,}", " ", s)`: each run of two or more whitespace
characters becomes a single space; lone whitespace characters are kept. -/
def collapseWs (l : Str) : Str := collapseGo .empty l

/-- The character set stripped in step 4: space, comma, dot, dash, slash. -/
def isStripChar (c : Char) : Bool :=
  c = ' ' || c = ',' || c = '.' || c = '-' || c = '/'

/-- Strip the step-4 punctuation characters from both ends. -/
def stripPunct (l : Str) : Str :=
  ((l.dropWhile isStripChar).reverse.dropWhile isStripChar).reverse

/-- `_clean_display_name`. -/
def cleanDisplayName (l : Str) : Str :=
  stripPunct (collapseWs (charFilter (cleanSub (preClean l))))

/-- Every character of the string survives the character filter. -/
def allowedStr (l : Str) : Prop := ∀ c ∈ l, isAllowedChar c = true

/-- No two adjacent whitespace characters. -/
def noTwoWs (l : Str) : Prop :=
  List.Chain' (fun a b => ¬(isWsChar a = true ∧ isWsChar b = true)) l

/-- A nonempty string whose first and last characters are not whitespace. -/
def endsNonWs (x : Str) : Prop :=
  x ≠ [] ∧ (∀ a, x.head? = some a → isWsChar a = false) ∧
  (∀ a, x.getLast? = some a → isWsChar a = false)

/-- The normalized lookup key of a raw string: the lowercase, accent-folded
key of its cleaned display form (`_key(_strip_acc(_clean_display_name(s)))`). -/
def normKey (s : Str) : Str := pkey (stripAcc (cleanDisplayName s))

/-! ## The alias key-value store (`alias_kv.py`)

One keyspace is an association list with first-match lookup and
replace-in-place upsert (`ON CONFLICT ... DO UPDATE`), keeping insertion
order like the sqlite table it models. -/

abbrev KV := List (Str × Nat)

def kvGet : KV → Str → Option Nat
  | [], _ => none
  | (k, v) :: rest, q => if k = q then some v else kvGet rest q

def kvSet : KV → Str → Nat → KV
  | [], q, v => [(q, v)]
  | (k, w) :: rest, q, v =>
    if k = q then (q, v) :: rest else (k, w) :: kvSet rest q v

/-- `upsert_player_aliases` / `upsert_tournament_aliases` on a batch. -/
def upsertMany (kv : KV) (pairs : List (Str × Nat)) : KV :=
  pairs.foldl (fun acc p => kvSet acc p.1 p.2) kv

/-! ## Name cores and candidate material (`alias_utils.py`) -/

/-- `_SURNAME_PARTICLES`. -/
def surnameParticles : List Str :=
  [str "al", str "el", str "bin", str "ibn", str "ben", str "de", str "del",
   str "della", str "delle", str "dei", str "degli", str "di", str "do",
   str "dos", str "da", str "das", str "du", str "des", str "la", str "le",
   str "lo", str "van", str "von", str "der", str "den", str "ter", str "ten",
   str "vander", str "vanden", str "vande", str "vd", str "v.d", str "san",
   str "santa", str "santo", str "los", str "las"]

def isParticle (t : Str) : Bool := toLowerStr t ∈ surnameParticles

/-- `_tokenize`: split on runs of space, tab and hyphen. -/
def tokenize (l : Str) : List Str :=
  splitRuns (fun c => c = ' ' || c = '\t' || c = '-') l

/-- First character of a token (tokens produced by `splitRuns` are
nonempty; the default is unreachable there). -/
def firstCharD (t : Str) : Char := t.headD ' '

def joinSep (sep : Char) (toks : List Str) : Str :=
  match toks with
  | [] => []
  | t :: rest => t ++ (rest.flatMap (fun u => sep :: u))

/-- Dotted initials of hyphen parts: `".".join(p[0] for p in parts) + "."`. -/
def initialsDotted (parts : List Str) : Str :=
  joinSep '.' (parts.map (fun p => [firstCharD p])) ++ ['.']

/-- Compact initials: `"".join(p[0] for p in parts)`. -/
def initialsCompact (parts : List Str) : Str := parts.map firstCharD

/-- `_first_cores_from_given`.  The source materialises a Python set; we fix
its insertion order (theorem C8 quantifies over the order explicitly). -/
def firstCores (given : Str) : List Str :=
  match splitWs given with
  | [] => []
  | t0 :: _ =>
    if '-' ∈ t0 then
      match splitRuns (fun c => c = '-') t0 with
      | [] => [t0]
      | parts => dedupKeepFirst
          (t0 :: parts ++ [initialsDotted parts, initialsCompact parts])
    else [t0]

/-- `_last_cores_from_surname`.  Same set-order convention as `firstCores`. -/
def lastCores (surname : Str) : List Str :=
  let toks := tokenize surname
  match toks with
  | [] => []
  | _ :: _ =>
    let full := joinSpace toks
    let rev := toks.reverse
    match rev.findIdx? (fun t => !isParticle t) with
    | none => [full]
    | some k =>
      let lastNP := rev.getD k []
      let after := rev.drop (k + 1)
      let m := (after.takeWhile isParticle).length
      let coreWithParticles := joinSpace (((rev.drop k).take (m + 1)).reverse)
      let pair :=
        match after with
        | prevTok :: _ =>
          if !isParticle prevTok then [joinSpace [prevTok, lastNP]] else []
        | [] => []
      (dedupKeepFirst ([full, lastNP, coreWithParticles] ++ pair)).filter
        (fun v => !isParticle (trimWs v))

/-- `str.rstrip(".")` on a token. -/
def rstripDots (t : Str) : Str := (t.reverse.dropWhile (fun c => c = '.')).reverse

/-- `_flip_last_first_if_any`. -/
def flipLastFirst (name : Str) : Str :=
  let n := cleanDisplayName name
  if ',' ∈ n then
    let last := trimWs (n.takeWhile (fun c => c ≠ ','))
    let first := trimWs ((n.dropWhile (fun c => c ≠ ',')).drop 1)
    if last = [] || first = [] then n
    else
      let first2 := joinSpace ((splitWs first).map rstripDots)
      trimWs (first2 ++ ' ' :: last)
  else n

/-- The guess produced by `_parse_name_guess`. -/
structure Guess where
  first_name : Str
  last_name : Str
  canonical : Str
deriving DecidableEq, Repr

/-- `_parse_name_guess`. -/
def parseNameGuess (raw : Str) : Guess :=
  let rn := cleanDisplayName raw
  if ',' ∈ rn then
    let flipped := flipLastFirst rn
    let toks := splitWs flipped
    if 2 ≤ toks.length then
      let first := pyTitle (joinSpace toks.dropLast)
      let last := pyTitle (toks.getLastD [])
      ⟨first, last, first ++ ' ' :: last⟩
    else ⟨pyTitle flipped, [], pyTitle flipped⟩
  else
    let toks := splitWs (rn.filter (fun c => c ≠ '.'))
    if 2 ≤ toks.length then
      let first := pyTitle (joinSpace toks.dropLast)
      let last := pyTitle (toks.getLastD [])
      ⟨first, last, first ++ ' ' :: last⟩
    else ⟨pyTitle rn, [], pyTitle rn⟩

/-- `_alias_variants_for`.  The intermediate sets only feed the final
`sorted({...})`, so list-level duplicate order is irrelevant; we keep the
construction order of the source. -/
def aliasVariantsFor (first0 last0 : Str) : List Str :=
  let first := trimWs first0
  let last := trimWs last0
  if first = [] && last = [] then []
  else
    let base := trimWs (first ++ ' ' :: last)
    let commaV := if first ≠ [] && last ≠ [] then [last ++ str ", " ++ first] else []
    let hyphenV :=
      if '-' ∈ first then
        match splitRuns (fun c => c = '-') first with
        | [] => []
        | parts =>
          (parts.flatMap (fun sub => [sub ++ ' ' :: last, last ++ str ", " ++ sub]))
          ++ [initialsDotted parts ++ ' ' :: last, initialsCompact parts ++ ' ' :: last]
      else []
    let truncV :=
      if last ≠ [] then
        [first ++ ' ' :: (last.take 3) ++ ['.'], (last.take 3) ++ str ". " ++ first]
      else []
    let vs := [base] ++ commaV ++ hyphenV ++ truncV
    let expanded := vs ++ vs.flatMap (fun v => [stripAcc v, toLowerStr v, toLowerStr (stripAcc v)])
    sortDedup ((expanded.filter (fun v => v ≠ [] && trimWs v ≠ [])).map
      (fun v => trimWs (collapseWs v)))

/-! ## Association lists with Python-dict assignment semantics -/

def assocGet {β : Type} : List (Nat × β) → Nat → Option β
  | [], _ => none
  | (k, v) :: rest, q => if k = q then some v else assocGet rest q

def assocSet {β : Type} : List (Nat × β) → Nat → β → List (Nat × β)
  | [], q, v => [(q, v)]
  | (k, w) :: rest, q, v =>
    if k = q then (q, v) :: rest else (k, w) :: assocSet rest q v

/-! ## Tournament domain (`alias_utils_tournaments.py`) -/

namespace Tournaments

/-- A canonical tournament record. -/
structure TourRec where
  canonical_name : Str
  level : Str := []
  country : Str := []
  city : Str := []
  surface : Str := []
deriving DecidableEq, Repr

/-- A pending proposal.  `uuid.uuid4()` identifiers are modelled as opaque
naturals supplied by the caller; timestamps and context rows carry no
information used by any claim and are omitted. -/
structure TProposal where
  pid : Nat
  raw_samples : List Str
  canonical_name_guess : Str
  aliases : List Str
  sightings : Nat
deriving DecidableEq, Repr

/-- The persistent state of the tournament domain: the `meta.next_id`
counter and `data` of `all_tournaments.json`, the proposal queue of
`unmapped_tournaments.json`, and the `tournament_aliases` keyspace. -/
structure TourState where
  next_id : Nat
  data : List (Nat × TourRec)
  queue : List TProposal
  kv : KV
deriving DecidableEq, Repr

/-- The merge test of `register_unmapped_tournament`: same normalized
canonical guess (note the source strips accents only on the stored guess,
not on the new `cname`), or raw-sample overlap. -/
def mergeMatch (cname : Str) (key0 : Str) (p : TProposal) : Bool :=
  pkey (stripAcc p.canonical_name_guess) = pkey cname ||
  key0 ∈ p.raw_samples.map (fun s => pkey (stripAcc s))

/-- Merging a sighting into an existing proposal. -/
def mergeInto (raw : Str) (aliases : List Str) (p : TProposal) : TProposal :=
  { p with
    sightings := p.sightings + 1
    raw_samples := if raw ∈ p.raw_samples then p.raw_samples else p.raw_samples ++ [raw]
    aliases := sortDedup (p.aliases ++ aliases) }

/-- Update the first proposal matching `cond` (the source loop returns on
the first match); `none` if no proposal matches. -/
def updateFirst (cond : TProposal → Bool) (upd : TProposal → TProposal) :
    List TProposal → Option (List TProposal × TProposal)
  | [] => none
  | p :: rest =>
    if cond p then some (upd p :: rest, upd p)
    else match updateFirst cond upd rest with
         | some (l, q) => some (p :: l, q)
         | none => none

/-- `register_unmapped_tournament`. -/
def registerT (fresh : Nat) (raw : Str) (st : TourState) : TourState × TProposal :=
  let cname := pyTitle (trimWs raw)
  let aliases := sortDedup [raw, toLowerStr raw, cname, stripAcc raw, toLowerStr (stripAcc raw)]
  let key0 := pkey (stripAcc raw)
  match updateFirst (mergeMatch cname key0) (mergeInto raw aliases) st.queue with
  | some (q, p) => ({ st with queue := q }, p)
  | none =>
    let prop : TProposal :=
      { pid := fresh, raw_samples := [raw], canonical_name_guess := cname
        aliases := aliases, sightings := 1 }
    ({ st with queue := st.queue ++ [prop] }, prop)

/-- The non-clobbering alias-migration pairs built by
`approve_proposal_as_new` and `mark_proposal_as_duplicate`: each alias key
(and its accent-stripped form, when different) is written only when its
current entry is absent or already the target id.  All reads are against
the pre-call store, as in the source (the batch upsert happens after the
loop). -/
def migrationPairs (kv : KV) (aliases : List Str) (tid : Nat) : List (Str × Nat) :=
  aliases.flatMap (fun a =>
    let k := pkey a
    let ok1 := match kvGet kv k with | none => true | some e => e = tid
    let noacc := pkey (stripAcc a)
    let ok2 := match kvGet kv noacc with | none => true | some e => e = tid
    (if ok1 then [(k, tid)] else []) ++
    (if noacc ≠ k && ok2 then [(noacc, tid)] else []))

/-- `approve_proposal_as_new`.  The `ValueError` raised when the proposal id
is absent is modelled as `Except.error`. -/
def approveT (pid : Nat) (level country city surface : Str) (st : TourState) :
    Except Unit (TourState × Nat) :=
  match st.queue.find? (fun p => p.pid = pid) with
  | none => .error ()
  | some target =>
    let newId := st.next_id
    let rec_ : TourRec :=
      { canonical_name := trimWs target.canonical_name_guess
        level := level, country := country, city := city, surface := surface }
    let pairs := migrationPairs st.kv target.aliases newId
    .ok ({ next_id := newId + 1
           data := assocSet st.data newId rec_
           queue := st.queue.filter (fun p => !(p.pid = pid))
           kv := upsertMany st.kv pairs }, newId)

/-- `mark_proposal_as_duplicate`. -/
def markDupT (pid existing : Nat) (mergeAliases : Bool) (st : TourState) :
    Except Unit TourState :=
  match st.queue.find? (fun p => p.pid = pid) with
  | none => .error ()
  | some target =>
    let kv' := if mergeAliases
      then upsertMany st.kv (migrationPairs st.kv target.aliases existing)
      else st.kv
    .ok { st with kv := kv', queue := st.queue.filter (fun p => !(p.pid = pid)) }

/-- `_canonical_index`: accent-stripped canonical-name key → id, built by
dict assignment (later records overwrite colliding keys, keeping position). -/
def canonicalIndexT (data : List (Nat × TourRec)) : List (Str × Nat) :=
  data.foldl (fun idx e =>
    let k := pkey (stripAcc e.2.canonical_name)
    if k ≠ [] then kvSet idx k e.1 else idx) []

/-- Result of `resolve_tournament`: the id found (if any), the state after
the call (the alias store may have been healed), and the number of
canonical-index lookups performed. -/
structure TResolveOut where
  result : Option Nat
  state : TourState
  idxAccesses : Nat
deriving DecidableEq, Repr

/-- `resolve_tournament`. -/
def resolveT (raw : Str) (st : TourState) : TResolveOut :=
  let k1 := pkey raw
  match kvGet st.kv k1 with
  | some tid => ⟨some tid, st, 0⟩
  | none =>
    let k2 := pkey (stripAcc raw)
    match kvGet st.kv k2 with
    | some tid => ⟨some tid, st, 0⟩
    | none =>
      let idx := canonicalIndexT st.data
      match kvGet idx k2 with
      | none => ⟨none, st, 1⟩
      | some tid =>
        let pairs := (if k1 ≠ [] then [(k1, tid)] else []) ++
                     (if k2 ≠ [] && k2 ≠ k1 then [(k2, tid)] else [])
        ⟨some tid, { st with kv := upsertMany st.kv pairs }, 1⟩

/-- `seed_aliases_from_canonicals` (tournament version). -/
def seedT (st : TourState) : TourState :=
  let pairs := (canonicalIndexT st.data).flatMap (fun e =>
    let raw := match assocGet st.data e.2 with
               | some r => r.canonical_name
               | none => []
    let lower := pkey raw
    (e.1, e.2) :: (if lower ≠ [] && lower ≠ e.1 then [(lower, e.2)] else []))
  { st with kv := upsertMany st.kv pairs }

/-- `cmd_set_next_id` of the review CLI: overwrite `meta.next_id`. -/
def setNextIdT (v : Nat) (st : TourState) : TourState :=
  { st with next_id := v }

/-- The operations whose sequences claim C5 quantifies over. -/
inductive TOp where
  | register (fresh : Nat) (raw : Str)
  | approve (pid : Nat) (level country city surface : Str)
  | markDup (pid existing : Nat) (mergeAliases : Bool)
  | resolve (raw : Str)
  | seed
  | setNext (v : Nat)
deriving DecidableEq, Repr

/-- One step; also reports the ids issued by the step (the `new_id` of a
successful approve). -/
def stepT (st : TourState) (op : TOp) : TourState × List Nat :=
  match op with
  | .register fresh raw => ((registerT fresh raw st).1, [])
  | .approve pid a b c d =>
    match approveT pid a b c d st with
    | .ok (st', newId) => (st', [newId])
    | .error _ => (st, [])
  | .markDup pid ex m =>
    match markDupT pid ex m st with
    | .ok st' => (st', [])
    | .error _ => (st, [])
  | .resolve raw => ((resolveT raw st).state, [])
  | .seed => (seedT st, [])
  | .setNext v => (setNextIdT v st, [])

/-- Run a sequence of operations, collecting all issued ids in order. -/
def runT (st : TourState) : List TOp → TourState × List Nat
  | [] => (st, [])
  | op :: rest =>
    let (st', ids) := stepT st op
    let (st'', ids') := runT st' rest
    (st'', ids ++ ids')

def isSetNext : TOp → Bool
  | .setNext _ => true
  | _ => false

/-- No administrative `set-next-id` command in the sequence. -/
def noSetNext (ops : List TOp) : Bool := ops.all (fun op => !isSetNext op)

end Tournaments

/-! ## Player domain (`alias_utils.py`) -/

namespace Players

/-- A canonical player record (the fields consulted by the resolver;
`gender`/`preferred_hand` are carried through unchanged and play no role). -/
structure PRec where
  canonical_name : Str := []
  first_name : Str := []
  last_name : Str := []
deriving DecidableEq, Repr

/-- A pending player proposal. -/
structure PProposal where
  pid : Nat
  raw_samples : List Str
  canonical_name_guess : Str
  first_name_guess : Str
  last_name_guess : Str
  aliases : List Str
  sightings : Nat
deriving DecidableEq, Repr

/-- The player-domain state: `all_players.json` data, the unmapped queue,
the `player_aliases` keyspace, and the process-lifetime `_EXT_INDEX`
(`none` until first built). -/
structure PlayerState where
  data : List (Nat × PRec)
  queue : List PProposal
  kv : KV
  ext_index : Option (List (Str × Nat)) := none
deriving DecidableEq, Repr

/-- The merge test of `register_unmapped_player` (this domain strips
accents on both guesses and cleans the raw samples before keying). -/
def mergeMatchP (guessCanonical : Str) (keyClean : Str) (p : PProposal) : Bool :=
  pkey (stripAcc p.canonical_name_guess) = pkey (stripAcc guessCanonical) ||
  keyClean ∈ p.raw_samples.map (fun s => pkey (stripAcc (cleanDisplayName s)))

def mergeIntoP (raw : Str) (aliases : List Str) (p : PProposal) : PProposal :=
  { p with
    sightings := p.sightings + 1
    raw_samples := if raw ∈ p.raw_samples then p.raw_samples else p.raw_samples ++ [raw]
    aliases := sortDedup (p.aliases ++ aliases) }

def updateFirstP (cond : PProposal → Bool) (upd : PProposal → PProposal) :
    List PProposal → Option (List PProposal × PProposal)
  | [] => none
  | p :: rest =>
    if cond p then some (upd p :: rest, upd p)
    else match updateFirstP cond upd rest with
         | some (l, q) => some (p :: l, q)
         | none => none

/-- `register_unmapped_player`. -/
def registerP (fresh : Nat) (raw : Str) (st : PlayerState) : PlayerState × PProposal :=
  let guess := parseNameGuess raw
  let aliases := aliasVariantsFor guess.first_name guess.last_name
  let keyClean := pkey (stripAcc (cleanDisplayName raw))
  match updateFirstP (mergeMatchP guess.canonical keyClean) (mergeIntoP raw aliases) st.queue with
  | some (q, p) => ({ st with queue := q }, p)
  | none =>
    let prop : PProposal :=
      { pid := fresh, raw_samples := [raw], canonical_name_guess := guess.canonical
        first_name_guess := guess.first_name, last_name_guess := guess.last_name
        aliases := aliases, sightings := 1 }
    ({ st with queue := st.queue ++ [prop] }, prop)

/-- `_kv_hit`: probe the store on the cleaned and the accent-stripped
cleaned key (note the argument is cleaned again inside, as in the source). -/
def kvHit (kv : KV) (name : Str) : Option Nat :=
  let c := cleanDisplayName name
  match kvGet kv (pkey c) with
  | some uid => some uid
  | none => kvGet kv (pkey (stripAcc c))

/-- The `k = _key(v); if k: pairs.append((k, uid))` loop shared by the
seeding and heal paths. -/
def keyPairs (uid : Nat) (vs : List Str) : List (Str × Nat) :=
  vs.filterMap (fun v => let k := pkey v; if k ≠ [] then some (k, uid) else none)

/-- The auto-heal pairs written on a candidate hit:
`{orig, stripped orig, cand, stripped cand}` keyed and filtered nonempty. -/
def healPairs (orig cand : Str) (uid : Nat) : List (Str × Nat) :=
  keyPairs uid (dedupKeepFirst [orig, stripAcc orig, cand, stripAcc cand])

/-- The comma-branch candidate list of `resolve_player`, parameterised by
the iteration orders `σf`/`σl` used to materialise the first-core and
last-core sets (Python's `list(set)`; identity order is the model's
default). -/
def commaCombosWith (σf σl : List Str → List Str) (orig : Str) : List Str :=
  let lastPart := trimWs (orig.takeWhile (fun c => c ≠ ','))
  let firstPart := trimWs ((orig.dropWhile (fun c => c ≠ ',')).drop 1)
  (σf (firstCores firstPart)).flatMap (fun f =>
    (σl (lastCores lastPart)).map (fun l => trimWs (f ++ ' ' :: l)))

def commaCandidatesWith (σf σl : List Str → List Str) (orig : Str) : List Str :=
  let flipped := flipLastFirst orig
  (if flipped ≠ [] then [flipped] else []) ++ commaCombosWith σf σl orig

def commaCandidates (orig : Str) : List Str := commaCandidatesWith id id orig

/-- The plain-form (no comma, three or more tokens) candidate list:
first-cores of the given part × last-cores of the particle-extended
surname plus the whole tail, probed in order with duplicates skipped
(the source's `seen` set). -/
def plainCandidates (orig : Str) : List Str :=
  let toks := splitWs orig
  let pref := toks.dropLast
  let m := (pref.reverse.takeWhile isParticle).length
  let surname := joinSpace ((pref.reverse.take m).reverse ++ [toks.getLastD []])
  let fcs := firstCores (joinSpace pref)
  let lcs := lastCores surname ++ lastCores (joinSpace (toks.drop 1))
  dedupKeepFirst (fcs.flatMap (fun f => lcs.map (fun l => trimWs (f ++ ' ' :: l))))

/-- First candidate with a store hit, with the winning candidate. -/
def probeKV (kv : KV) : List Str → Option (Nat × Str)
  | [] => none
  | c :: rest =>
    match kvHit kv c with
    | some uid => some (uid, c)
    | none => probeKV kv rest

/-- `_build_ext_index`: canonical name, `first last` pair, and every
first-core × last-core key, normalized; first writer wins. -/
def buildExtIndex (data : List (Nat × PRec)) : List (Str × Nat) :=
  data.foldl (fun idx e =>
    let uid := e.1
    let rec_ := e.2
    let first := trimWs rec_.first_name
    let last := trimWs rec_.last_name
    let canon := trimWs (if rec_.canonical_name = [] then first ++ ' ' :: last
                         else rec_.canonical_name)
    if first = [] && last = [] && canon = [] then idx
    else
      let fcs := firstCores (if first ≠ [] then first else canon)
      let lcs := lastCores (if last ≠ [] then last
                            else (splitWs canon).getLastD [])
      let pairKey := trimWs
        ((splitWs (if first ≠ [] then first else canon)).headD [] ++ ' ' ::
         (if last ≠ [] then last else (splitWs canon).getLastD []))
      let keys := dedupKeepFirst
        ([canon] ++ (if first ≠ [] || last ≠ [] then [pairKey] else []) ++
         fcs.flatMap (fun f => lcs.map (fun l => trimWs (f ++ ' ' :: l))))
      keys.foldl (fun idx2 k =>
        let nk := pkey (stripAcc (cleanDisplayName k))
        if nk ≠ [] && (kvGet idx2 nk).isNone then idx2 ++ [(nk, uid)] else idx2) idx)
    []

/-- Probe the extended index over the candidate list, counting lookups. -/
def extProbe (idx : List (Str × Nat)) : List Str → Option Nat × Nat
  | [] => (none, 0)
  | c :: rest =>
    match kvGet idx (pkey (stripAcc (cleanDisplayName c))) with
    | some uid => (some uid, 1)
    | none =>
      let (r, n) := extProbe idx rest
      (r, n + 1)

/-- Result of `resolve_player`: id found (if any), the state after the call
(healed store and/or cached index), and the number of extended-index
lookups performed. -/
structure PResolveOut where
  result : Option Nat
  state : PlayerState
  idxAccesses : Nat
deriving DecidableEq, Repr

/-- Step 4 of `resolve_player`: the extended-index fallback.  It performs
no store writes — the inline comment says "read-only" while the docstring
of the same function promises "on any hit, auto-heal"; the claims check
which of the two the code does. -/
def resolveFallbackP (orig : Str) (cands : List Str) (st : PlayerState) : PResolveOut :=
  let idx := match st.ext_index with
             | some i => i
             | none => buildExtIndex st.data
  let st' := { st with ext_index := some idx }
  match kvGet idx (pkey (stripAcc (cleanDisplayName orig))) with
  | some uid => ⟨some uid, st', 1⟩
  | none =>
    let pr := extProbe idx cands
    ⟨pr.1, st', 1 + pr.2⟩

/-- `resolve_player` (returning the resolved id; the record fields looked
up afterwards add nothing to the claims). -/
def resolveP (raw : Str) (st : PlayerState) : PResolveOut :=
  let orig := cleanDisplayName raw
  match kvHit st.kv orig with
  | some uid => ⟨some uid, st, 0⟩
  | none =>
    if ',' ∈ orig then
      let cands := commaCandidates orig
      match probeKV st.kv cands with
      | some (uid, cand) =>
        ⟨some uid, { st with kv := upsertMany st.kv (healPairs orig cand uid) }, 0⟩
      | none => resolveFallbackP orig cands st
    else
      if 3 ≤ (splitWs orig).length then
        match probeKV st.kv (plainCandidates orig) with
        | some (uid, cand) =>
          ⟨some uid, { st with kv := upsertMany st.kv (healPairs orig cand uid) }, 0⟩
        | none => resolveFallbackP orig [] st
      else resolveFallbackP orig [] st

/-- The per-record seeding pairs of `seed_aliases_from_canonicals`
(player version): the canonical name in original, accent-stripped,
lower-cased and both forms, keyed and filtered nonempty. -/
def seedPairsRec (uid : Nat) (rec_ : PRec) : List (Str × Nat) :=
  let canon0 := trimWs rec_.canonical_name
  let canon := if canon0 = []
    then trimWs (trimWs rec_.first_name ++ ' ' :: trimWs rec_.last_name)
    else canon0
  if canon = [] then []
  else keyPairs uid (dedupKeepFirst [canon, stripAcc canon, toLowerStr canon,
    toLowerStr (stripAcc canon)])

/-- `seed_aliases_from_canonicals` (player version). -/
def seedCanonicalsP (st : PlayerState) : PlayerState :=
  { st with kv := upsertMany st.kv (st.data.flatMap (fun e => seedPairsRec e.1 e.2)) }

/-- The per-record pairs of `seed_all_alias_variants`: the canonical base
pairs plus the bounded `_alias_variants_for` variants. -/
def seedVariantPairsRec (uid : Nat) (rec_ : PRec) : List (Str × Nat) :=
  let first := trimWs rec_.first_name
  let last := trimWs rec_.last_name
  let canon0 := trimWs rec_.canonical_name
  let canon := if canon0 = [] then trimWs (first ++ ' ' :: last) else canon0
  if first = [] && last = [] && canon = [] then []
  else keyPairs uid (dedupKeepFirst [canon, stripAcc canon, toLowerStr canon,
    toLowerStr (stripAcc canon)]) ++ keyPairs uid (aliasVariantsFor first last)

/-- `seed_all_alias_variants`. -/
def seedAllVariantsP (st : PlayerState) : PlayerState :=
  { st with kv := upsertMany st.kv (st.data.flatMap (fun e => seedVariantPairsRec e.1 e.2)) }

/-- A sequence of `register_unmapped_player` calls (fresh id, raw string). -/
def runRegP (st : PlayerState) : List (Nat × Str) → PlayerState
  | [] => st
  | (fresh, raw) :: rest => runRegP (registerP fresh raw st).1 rest

/-- Queue invariant: every proposal's alias set contains the normalized key
of the title-cased canonical guess parsed from each of its raw samples,
whenever that key is nonempty. -/
def aliasGuessInv (q : List PProposal) : Prop :=
  ∀ p ∈ q, ∀ s ∈ p.raw_samples,
    pkey (stripAcc (parseNameGuess s).canonical) ≠ [] →
    pkey (stripAcc (parseNameGuess s).canonical) ∈ p.aliases

/-- Store observed after `approve_proposal_as_new`,
with the pre-call store on failure. -/
def approveKvT (pid : Nat) (lv co ci su : Str) (st : Tournaments.TourState) : KV :=
  match Tournaments.approveT pid lv co ci su st with
  | .ok (st', _) => st'.kv
  | .error _ => st.kv

/-- Store observed after `mark_proposal_as_duplicate`. -/
def markDupKvT (pid existing : Nat) (m : Bool) (st : Tournaments.TourState) : KV :=
  match Tournaments.markDupT pid existing m st with
  | .ok st' => st'.kv
  | .error _ => st.kv

/-- Queue observed after `mark_proposal_as_duplicate`. -/
def markDupQueueT (pid existing : Nat) (m : Bool) (st : Tournaments.TourState) :
    List Tournaments.TProposal :=
  match Tournaments.markDupT pid existing m st with
  | .ok st' => st'.queue
  | .error _ => st.queue

end Players

/-! ## Concrete states used by the closed theorems -/

open Tournaments Players in
/-- A one-record player corpus whose canonical name is reachable only
through the extended-index fallback (empty alias store). -/
def stIdxP : Players.PlayerState :=
  { data := [(1, { canonical_name := str "Novak Djokovic",
                   first_name := str "Novak", last_name := str "Djokovic" })]
    queue := [], kv := [] }

/-- A one-record tournament corpus with an empty alias store. -/
def stIdxT : Tournaments.TourState :=
  { next_id := 5, data := [(3, { canonical_name := str "Roland Garros" })]
    queue := [], kv := [] }

/-- A player corpus holding an accented and an unaccented homograph;
seeding binds the folded key to the later record. -/
def stFold : Players.PlayerState :=
  Players.seedCanonicalsP
    { data := [(1, { canonical_name := str "Gómez" }),
               (2, { canonical_name := str "Gomez" })]
      queue := [], kv := [] }

/-- Two pending tournament proposals awaiting disposition. -/
def stTwoProps : Tournaments.TourState :=
  { next_id := 1, data := []
    queue := [ { pid := 1, raw_samples := [str "A Open"],
                 canonical_name_guess := str "A Open", aliases := [], sightings := 1 },
               { pid := 2, raw_samples := [str "B Open"],
                 canonical_name_guess := str "B Open", aliases := [], sightings := 1 } ]
    kv := [] }

/-- Approve, rewind the counter with the admin command, approve again. -/
def opsReissue : List Tournaments.TOp :=
  [.approve 1 [] [] [] [], .setNext 1, .approve 2 [] [] [] []]

/-- A pending proposal whose alias set holds a key already bound to a
different id (`held` → 3) next to fresh keys, over a store owning that key. -/
def stMigr : Tournaments.TourState :=
  { next_id := 9, data := []
    queue := [ { pid := 4, raw_samples := [str "X Open"],
                 canonical_name_guess := str "X Open"
                 aliases := [str "X Open", str "x open", str "held"], sightings := 1 } ]
    kv := [(str "held", 3)] }

/-! ## Store lemmas -/

theorem kvGet_kvSet_self (kv : KV) (k : Str) (v : Nat) :
    kvGet (kvSet kv k v) k = some v := by
  induction kv with
  | nil => simp [kvSet, kvGet]
  | cons p rest ih =>
    by_cases h : p.1 = k
    · simp [kvSet, kvGet, h]
    · simpa [kvSet, kvGet, h] using ih

theorem kvGet_kvSet_ne (kv : KV) (k q : Str) (v : Nat) (h : q ≠ k) :
    kvGet (kvSet kv k v) q = kvGet kv q := by
  induction kv with
  | nil => simp [kvSet, kvGet, Ne.symm h]
  | cons p rest ih =>
    by_cases hp : p.1 = k
    · subst hp; simp [kvSet, kvGet, Ne.symm h]
    · by_cases hq : p.1 = q
      · subst hq; simp [kvSet, kvGet, hp, h]
      · simpa [kvSet, kvGet, hp, hq] using ih

theorem kvGet_upsertMany_notMem (pairs : List (Str × Nat)) (kv : KV) (k : Str)
    (h : k ∉ pairs.map Prod.fst) :
    kvGet (upsertMany kv pairs) k = kvGet kv k := by
  induction pairs generalizing kv with
  | nil => rfl
  | cons p rest ih =>
    simp only [List.map_cons, List.mem_cons, not_or] at h
    have step : upsertMany kv (p :: rest) = upsertMany (kvSet kv p.1 p.2) rest := rfl
    rw [step, ih _ h.2, kvGet_kvSet_ne _ _ _ _ h.1]

theorem kvGet_upsertMany_mem_const (pairs : List (Str × Nat)) (kv : KV) (k : Str) (v : Nat)
    (hall : ∀ p ∈ pairs, p.2 = v) (hmem : k ∈ pairs.map Prod.fst) :
    kvGet (upsertMany kv pairs) k = some v := by
  induction pairs generalizing kv with
  | nil => simp at hmem
  | cons p rest ih =>
    have step : upsertMany kv (p :: rest) = upsertMany (kvSet kv p.1 p.2) rest := rfl
    by_cases hr : k ∈ rest.map Prod.fst
    · rw [step, ih _ (fun q hq => hall q (List.mem_cons_of_mem _ hq)) hr]
    · have hk : p.1 = k := by
        simp only [List.map_cons, List.mem_cons] at hmem
        tauto
      have hv : p.2 = v := hall p (List.mem_cons_self _ _)
      rw [step, kvGet_upsertMany_notMem _ _ _ hr, hk, hv, kvGet_kvSet_self kv k v]

/-! ## Migration-pair lemmas (tournament disposition operations) -/

theorem migrationPairs_spec (kv : KV) (aliases : List Str) (tid : Nat) :
    ∀ q ∈ Tournaments.migrationPairs kv aliases tid,
      q.2 = tid ∧ (kvGet kv q.1 = none ∨ kvGet kv q.1 = some tid) := by
  intro q hq
  simp only [Tournaments.migrationPairs, List.mem_flatMap] at hq
  obtain ⟨a, _, hq⟩ := hq
  rcases List.mem_append.1 hq with h | h
  · revert h
    cases h1 : kvGet kv (pkey a) with
    | none => intro h; simp at h; subst h; exact ⟨rfl, Or.inl h1⟩
    | some e =>
      by_cases he : e = tid
      · subst he; intro h; simp at h; subst h; exact ⟨rfl, Or.inr h1⟩
      · intro h; simp [he] at h
  · revert h
    by_cases hne : pkey (stripAcc a) ≠ pkey a
    · cases h2 : kvGet kv (pkey (stripAcc a)) with
      | none => intro h; simp [hne] at h; subst h; exact ⟨rfl, Or.inl h2⟩
      | some e =>
        by_cases he : e = tid
        · subst he; intro h; simp [hne] at h; subst h; exact ⟨rfl, Or.inr h2⟩
        · intro h; simp [hne, he] at h
    · intro h; simp [hne] at h

theorem migrationPairs_mem_of (kv : KV) (aliases : List Str) (tid : Nat) (a : Str)
    (ha : a ∈ aliases)
    (hok : kvGet kv (pkey a) = none ∨ kvGet kv (pkey a) = some tid) :
    (pkey a, tid) ∈ Tournaments.migrationPairs kv aliases tid := by
  simp only [Tournaments.migrationPairs, List.mem_flatMap]
  refine ⟨a, ha, List.mem_append.2 (Or.inl ?_)⟩
  rcases hok with h | h <;> simp [h]

theorem approveKvT_eq (st : Tournaments.TourState) (pid : Nat)
    (target : Tournaments.TProposal) (lv co ci su : Str)
    (hfind : st.queue.find? (fun p => p.pid = pid) = some target) :
    Players.approveKvT pid lv co ci su st =
      upsertMany st.kv (Tournaments.migrationPairs st.kv target.aliases st.next_id) := by
  simp [Players.approveKvT, Tournaments.approveT, hfind]

theorem markDupKvT_true_eq (st : Tournaments.TourState) (pid ex : Nat)
    (target : Tournaments.TProposal)
    (hfind : st.queue.find? (fun p => p.pid = pid) = some target) :
    Players.markDupKvT pid ex true st =
      upsertMany st.kv (Tournaments.migrationPairs st.kv target.aliases ex) := by
  simp [Players.markDupKvT, Tournaments.markDupT, hfind]

/-- Apply the non-clobbering migration to one alias key. -/
theorem migration_writes (kv : KV) (aliases : List Str) (tid : Nat) (a : Str)
    (ha : a ∈ aliases) :
    ((kvGet kv (pkey a) = none ∨ kvGet kv (pkey a) = some tid) →
      kvGet (upsertMany kv (Tournaments.migrationPairs kv aliases tid)) (pkey a) = some tid) ∧
    (∀ j, kvGet kv (pkey a) = some j → j ≠ tid →
      kvGet (upsertMany kv (Tournaments.migrationPairs kv aliases tid)) (pkey a) = some j) := by
  constructor
  · intro hok
    exact kvGet_upsertMany_mem_const _ _ _ _
      (fun q hq => (migrationPairs_spec kv aliases tid q hq).1)
      (List.mem_map.2 ⟨(pkey a, tid), migrationPairs_mem_of kv aliases tid a ha hok, rfl⟩)
  · intro j hj hne
    have hnot : pkey a ∉ (Tournaments.migrationPairs kv aliases tid).map Prod.fst := by
      intro hmem
      obtain ⟨q, hq, hq1⟩ := List.mem_map.1 hmem
      have := (migrationPairs_spec kv aliases tid q hq).2
      rw [hq1, hj] at this
      rcases this with h | h
      · exact Option.noConfusion h
      · exact hne (Option.some.inj h)
    rw [kvGet_upsertMany_notMem _ _ _ hnot, hj]

/-- C2: for every pending proposal and every alias in its alias set,
`approve_as_new` and `mark_duplicate (merge_aliases := true)` write the
alias key exactly when its current entry is absent or already the target
id; a key bound to a different id is left unchanged; and
`mark_duplicate (merge_aliases := false)` adds no alias rows while still
removing the proposal. -/
theorem alias_migration_non_clobbering
    (st : Tournaments.TourState) (pid : Nat) (target : Tournaments.TProposal)
    (lv co ci su : Str) (ex : Nat) (a : Str)
    (hfind : st.queue.find? (fun p => p.pid = pid) = some target)
    (ha : a ∈ target.aliases) :
    (((kvGet st.kv (pkey a) = none ∨ kvGet st.kv (pkey a) = some st.next_id) →
        kvGet (Players.approveKvT pid lv co ci su st) (pkey a) = some st.next_id) ∧
      (∀ j, kvGet st.kv (pkey a) = some j → j ≠ st.next_id →
        kvGet (Players.approveKvT pid lv co ci su st) (pkey a) = some j)) ∧
    (((kvGet st.kv (pkey a) = none ∨ kvGet st.kv (pkey a) = some ex) →
        kvGet (Players.markDupKvT pid ex true st) (pkey a) = some ex) ∧
      (∀ j, kvGet st.kv (pkey a) = some j → j ≠ ex →
        kvGet (Players.markDupKvT pid ex true st) (pkey a) = some j)) ∧
    (Players.markDupKvT pid ex false st = st.kv ∧
      (Players.markDupQueueT pid ex false st).find? (fun p => p.pid = pid) = none) := by
  refine ⟨?_, ?_, ?_, ?_⟩
  · rw [approveKvT_eq st pid target lv co ci su hfind]
    exact ⟨(migration_writes st.kv target.aliases st.next_id a ha).1,
           (migration_writes st.kv target.aliases st.next_id a ha).2⟩
  · rw [markDupKvT_true_eq st pid ex target hfind]
    exact ⟨(migration_writes st.kv target.aliases ex a ha).1,
           (migration_writes st.kv target.aliases ex a ha).2⟩
  · simp [Players.markDupKvT, Tournaments.markDupT, hfind]
  · simp only [Players.markDupQueueT, Tournaments.markDupT, hfind]
    rw [List.find?_eq_none]
    intro x hx
    simp only [List.mem_filter] at hx
    simpa using hx.2

/-- Witness for C2 at a concrete state: the alias `x open` (entry absent)
is written to the new id 9, the alias `held` (bound to 3 ≠ 9) is left
unchanged, and `merge_aliases := false` leaves the store intact while
emptying the queue. -/
theorem alias_migration_non_clobbering_witness :
    ((str "X Open") ∈ (stMigr.queue.headD ⟨0, [], [], [], 0⟩).aliases ∧
      kvGet stMigr.kv (pkey (str "held")) = some 3) ∧
    kvGet (Players.approveKvT 4 [] [] [] [] stMigr) (pkey (str "X Open")) = some 9 ∧
    kvGet (Players.approveKvT 4 [] [] [] [] stMigr) (pkey (str "held")) = some 3 ∧
    Players.markDupKvT 4 7 false stMigr = stMigr.kv := by
  have hfind : stMigr.queue.find? (fun p => p.pid = 4) =
      some ⟨4, [str "X Open"], str "X Open",
            [str "X Open", str "x open", str "held"], 1⟩ := by decide
  refine ⟨⟨by decide, by decide⟩, ?_, ?_, ?_⟩
  · exact ((alias_migration_non_clobbering stMigr 4 _ [] [] [] [] 7 (str "X Open")
      hfind (by decide)).1).1 (Or.inl (by decide))
  · exact ((alias_migration_non_clobbering stMigr 4 _ [] [] [] [] 7 (str "held")
      hfind (by decide)).1).2 3 (by decide) (by decide)
  · exact ((alias_migration_non_clobbering stMigr 4 _ [] [] [] [] 7 (str "held")
      hfind (by decide)).2).2.1

/-- C3 (tournament half): both disposition operations fail with the
NotFound condition when the proposal id is absent, without touching the
state (the model returns the error before constructing any successor
state, mirroring the source, which raises before any write). -/
theorem disposition_notfound
    (st : Tournaments.TourState) (pid ex : Nat) (lv co ci su : Str) (m : Bool)
    (h : st.queue.find? (fun p => p.pid = pid) = none) :
    Tournaments.approveT pid lv co ci su st = .error () ∧
    Tournaments.markDupT pid ex m st = .error () := by
  constructor
  · simp [Tournaments.approveT, h]
  · simp [Tournaments.markDupT, h]

theorem disposition_notfound_witness :
    stMigr.queue.find? (fun p => p.pid = 99) = none ∧
    Tournaments.approveT 99 [] [] [] [] stMigr = .error () ∧
    Tournaments.markDupT 99 7 true stMigr = .error () := by
  refine ⟨by decide, ?_⟩
  have h := disposition_notfound stMigr 99 7 [] [] [] [] true (by decide)
  exact ⟨h.1, h.2⟩

/-- C1: at an input resolved only through the index fallback, the player
resolver returns the id but writes nothing back (its own docstring promises
"on any hit, auto-heal KV"), so an immediately repeated resolve consults
the index again (one access, not zero); the tournament resolver does heal,
and its repeated resolve performs zero index accesses. -/
theorem index_fallback_heal_divergence :
    ((Players.resolveP (str "Novak Djokovic") stIdxP).result = some 1 ∧
     (Players.resolveP (str "Novak Djokovic") stIdxP).idxAccesses = 1 ∧
     (Players.resolveP (str "Novak Djokovic") stIdxP).state.kv = stIdxP.kv ∧
     (Players.resolveP (str "Novak Djokovic")
        (Players.resolveP (str "Novak Djokovic") stIdxP).state).idxAccesses = 1) ∧
    ((Tournaments.resolveT (str "Roland Garros") stIdxT).result = some 3 ∧
     (Tournaments.resolveT (str "Roland Garros") stIdxT).idxAccesses = 1 ∧
     (Tournaments.resolveT (str "Roland Garros")
        (Tournaments.resolveT (str "Roland Garros") stIdxT).state).idxAccesses = 0) := by
  decide

/-! ## C5: the next-id counter under operation sequences -/

theorem registerT_next_id (f : Nat) (raw : Str) (st : Tournaments.TourState) :
    (Tournaments.registerT f raw st).1.next_id = st.next_id := by
  unfold Tournaments.registerT
  cases h : Tournaments.updateFirst
      (Tournaments.mergeMatch (pyTitle (trimWs raw)) (pkey (stripAcc raw)))
      (Tournaments.mergeInto raw
        (sortDedup [raw, toLowerStr raw, pyTitle (trimWs raw), stripAcc raw,
          toLowerStr (stripAcc raw)])) st.queue with
  | none => simp [h]
  | some q => simp [h]

theorem resolveT_next_id (raw : Str) (st : Tournaments.TourState) :
    (Tournaments.resolveT raw st).state.next_id = st.next_id := by
  simp only [Tournaments.resolveT]
  repeat' split
  all_goals rfl

/-- Behaviour of one non-admin step: either no id is issued and the counter
is unchanged, or the current counter value is issued and incremented. -/
theorem stepT_spec (st : Tournaments.TourState) (op : Tournaments.TOp)
    (h : Tournaments.isSetNext op = false) :
    ((Tournaments.stepT st op).2 = [] ∧
      (Tournaments.stepT st op).1.next_id = st.next_id) ∨
    ((Tournaments.stepT st op).2 = [st.next_id] ∧
      (Tournaments.stepT st op).1.next_id = st.next_id + 1) := by
  cases op with
  | register f raw =>
    exact Or.inl ⟨rfl, registerT_next_id f raw st⟩
  | approve pid lv co ci su =>
    cases hf : st.queue.find? (fun p => p.pid = pid) with
    | none => exact Or.inl (by simp [Tournaments.stepT, Tournaments.approveT, hf])
    | some t => exact Or.inr (by simp [Tournaments.stepT, Tournaments.approveT, hf])
  | markDup pid ex m =>
    cases hf : st.queue.find? (fun p => p.pid = pid) with
    | none => exact Or.inl (by simp [Tournaments.stepT, Tournaments.markDupT, hf])
    | some t => exact Or.inl (by simp [Tournaments.stepT, Tournaments.markDupT, hf])
  | resolve raw =>
    exact Or.inl ⟨rfl, resolveT_next_id raw st⟩
  | seed => exact Or.inl ⟨rfl, rfl⟩
  | setNext v => exact absurd h (by simp [Tournaments.isSetNext])

theorem runT_cons (st : Tournaments.TourState) (op : Tournaments.TOp)
    (rest : List Tournaments.TOp) :
    Tournaments.runT st (op :: rest) =
      ((Tournaments.runT (Tournaments.stepT st op).1 rest).1,
       (Tournaments.stepT st op).2 ++ (Tournaments.runT (Tournaments.stepT st op).1 rest).2) := rfl

/-- Core invariant for C5: without the admin command, the counter never
decreases, the issued ids are strictly increasing, and every issued id lies
between the initial and the final counter value. -/
theorem runT_monotone (ops : List Tournaments.TOp) :
    ∀ st : Tournaments.TourState, Tournaments.noSetNext ops = true →
      st.next_id ≤ (Tournaments.runT st ops).1.next_id ∧
      (Tournaments.runT st ops).2.Pairwise (· < ·) ∧
      ∀ i ∈ (Tournaments.runT st ops).2,
        st.next_id ≤ i ∧ i < (Tournaments.runT st ops).1.next_id := by
  induction ops with
  | nil => intro st _; exact ⟨Nat.le_refl _, List.Pairwise.nil, by simp [Tournaments.runT]⟩
  | cons op rest ih =>
    intro st h
    simp only [Tournaments.noSetNext, List.all_cons, Bool.and_eq_true,
      Bool.not_eq_true'] at h
    have hop : Tournaments.isSetNext op = false := h.1
    have hrest : Tournaments.noSetNext rest = true := h.2
    obtain ⟨ihle, ihpw, ihbd⟩ := ih (Tournaments.stepT st op).1 hrest
    rw [runT_cons]
    dsimp only
    rcases stepT_spec st op hop with ⟨hids, hnext⟩ | ⟨hids, hnext⟩
    · rw [hids]
      refine ⟨hnext ▸ ihle, by simpa using ihpw, ?_⟩
      intro i hi
      simp only [List.nil_append] at hi
      have := ihbd i hi
      omega
    · rw [hids]
      have hb : ∀ i ∈ (Tournaments.runT (Tournaments.stepT st op).1 rest).2,
          st.next_id + 1 ≤ i ∧
          i < (Tournaments.runT (Tournaments.stepT st op).1 rest).1.next_id := by
        intro i hi; have := ihbd i hi; omega
      refine ⟨by omega, ?_, ?_⟩
      · rw [List.singleton_append, List.pairwise_cons]
        exact ⟨fun b hb' => by have := hb b hb'; omega, ihpw⟩
      · intro i hi
        rw [List.singleton_append, List.mem_cons] at hi
        rcases hi with rfl | hi
        · omega
        · have := hb i hi; omega

/-- C5 amended: across every sequence of core operations (the
administrative `set-next-id` excluded) the counter never regresses and the
issued ids are strictly increasing, hence never reissued; and setting the
counter to 500 then approving a pending proposal issues exactly id 500. -/
theorem next_id_monotone_core_ops (st : Tournaments.TourState)
    (ops : List Tournaments.TOp) (h : Tournaments.noSetNext ops = true) :
    (st.next_id ≤ (Tournaments.runT st ops).1.next_id ∧
      (Tournaments.runT st ops).2.Pairwise (· < ·)) ∧
    (∀ (st2 : Tournaments.TourState) (pid : Nat) (target : Tournaments.TProposal)
       (lv co ci su : Str),
       st2.queue.find? (fun p => p.pid = pid) = some target →
       (Tournaments.stepT (Tournaments.setNextIdT 500 st2)
          (.approve pid lv co ci su)).2 = [500]) := by
  refine ⟨⟨(runT_monotone ops st h).1, (runT_monotone ops st h).2.1⟩, ?_⟩
  intro st2 pid target lv co ci su hfind
  simp [Tournaments.stepT, Tournaments.approveT, Tournaments.setNextIdT, hfind]

theorem next_id_monotone_core_ops_witness :
    Tournaments.noSetNext [Tournaments.TOp.approve 1 [] [] [] [],
      Tournaments.TOp.approve 2 [] [] [] []] = true ∧
    (Tournaments.runT stTwoProps [Tournaments.TOp.approve 1 [] [] [] [],
      Tournaments.TOp.approve 2 [] [] [] []]).2.Pairwise (· < ·) :=
  ⟨by decide,
   (next_id_monotone_core_ops stTwoProps _ (by decide)).1.2⟩

/-- C5 counterexample: with the exposed `set-next-id` command in the
sequence, the persisted counter regresses and id 1 is issued twice. -/
theorem next_id_reissue_counterexample :
    (Tournaments.runT stTwoProps opsReissue).2 = [1, 1] ∧
    ¬ (Tournaments.runT stTwoProps opsReissue).2.Nodup := by
  decide

/-! ## C6: double registration merges into a single proposal -/

/-- C6: registering the same raw name twice against an empty queue yields
exactly one proposal with two sightings and a single raw sample, in both
the tournament and the player domain (for the identical raw string, the
raw-sample-overlap disjunct of the merge test always fires). -/
theorem register_twice_single_proposal (raw : Str) (f1 f2 nid : Nat)
    (data : List (Nat × Tournaments.TourRec)) (kv : KV)
    (pdata : List (Nat × Players.PRec)) (pkv : KV)
    (ext : Option (List (Str × Nat))) :
    (∃ p, (Tournaments.registerT f2 raw
             (Tournaments.registerT f1 raw ⟨nid, data, [], kv⟩).1).1.queue = [p] ∧
          p.sightings = 2 ∧ p.raw_samples = [raw]) ∧
    (∃ p, (Players.registerP f2 raw
             (Players.registerP f1 raw ⟨pdata, [], pkv, ext⟩).1).1.queue = [p] ∧
          p.sightings = 2 ∧ p.raw_samples = [raw]) := by
  constructor
  · have hcond : ∀ q aliases,
        Tournaments.updateFirst
          (Tournaments.mergeMatch (pyTitle (trimWs raw)) (pkey (stripAcc raw)))
          (Tournaments.mergeInto raw aliases)
          [⟨q, [raw], pyTitle (trimWs raw), aliases, 1⟩] =
        some ([Tournaments.mergeInto raw aliases ⟨q, [raw], pyTitle (trimWs raw), aliases, 1⟩],
              Tournaments.mergeInto raw aliases ⟨q, [raw], pyTitle (trimWs raw), aliases, 1⟩) := by
      intro q aliases
      simp [Tournaments.updateFirst, Tournaments.mergeMatch]
    have h1 : (Tournaments.registerT f1 raw ⟨nid, data, [], kv⟩).1 =
        ⟨nid, data, [⟨f1, [raw], pyTitle (trimWs raw),
          sortDedup [raw, toLowerStr raw, pyTitle (trimWs raw), stripAcc raw,
            toLowerStr (stripAcc raw)], 1⟩], kv⟩ := rfl
    have h2 : (Tournaments.registerT f2 raw
        ⟨nid, data, [⟨f1, [raw], pyTitle (trimWs raw),
          sortDedup [raw, toLowerStr raw, pyTitle (trimWs raw), stripAcc raw,
            toLowerStr (stripAcc raw)], 1⟩], kv⟩).1.queue =
        [Tournaments.mergeInto raw
          (sortDedup [raw, toLowerStr raw, pyTitle (trimWs raw), stripAcc raw,
            toLowerStr (stripAcc raw)])
          ⟨f1, [raw], pyTitle (trimWs raw),
            sortDedup [raw, toLowerStr raw, pyTitle (trimWs raw), stripAcc raw,
              toLowerStr (stripAcc raw)], 1⟩] := by
      simp only [Tournaments.registerT]
      rw [hcond f1 _]
    exact ⟨_, by rw [h1, h2], by simp [Tournaments.mergeInto], by simp [Tournaments.mergeInto]⟩
  · have hcond : ∀ q aliases,
        Players.updateFirstP
          (Players.mergeMatchP (parseNameGuess raw).canonical
            (pkey (stripAcc (cleanDisplayName raw))))
          (Players.mergeIntoP raw aliases)
          [⟨q, [raw], (parseNameGuess raw).canonical, (parseNameGuess raw).first_name,
            (parseNameGuess raw).last_name, aliases, 1⟩] =
        some ([Players.mergeIntoP raw aliases
                ⟨q, [raw], (parseNameGuess raw).canonical, (parseNameGuess raw).first_name,
                 (parseNameGuess raw).last_name, aliases, 1⟩],
              Players.mergeIntoP raw aliases
                ⟨q, [raw], (parseNameGuess raw).canonical, (parseNameGuess raw).first_name,
                 (parseNameGuess raw).last_name, aliases, 1⟩) := by
      intro q aliases
      simp [Players.updateFirstP, Players.mergeMatchP]
    have h1 : (Players.registerP f1 raw ⟨pdata, [], pkv, ext⟩).1 =
        ⟨pdata, [⟨f1, [raw], (parseNameGuess raw).canonical,
          (parseNameGuess raw).first_name, (parseNameGuess raw).last_name,
          aliasVariantsFor (parseNameGuess raw).first_name (parseNameGuess raw).last_name,
          1⟩], pkv, ext⟩ := rfl
    have h2 : (Players.registerP f2 raw
        ⟨pdata, [⟨f1, [raw], (parseNameGuess raw).canonical,
          (parseNameGuess raw).first_name, (parseNameGuess raw).last_name,
          aliasVariantsFor (parseNameGuess raw).first_name (parseNameGuess raw).last_name,
          1⟩], pkv, ext⟩).1.queue =
        [Players.mergeIntoP raw
          (aliasVariantsFor (parseNameGuess raw).first_name (parseNameGuess raw).last_name)
          ⟨f1, [raw], (parseNameGuess raw).canonical,
            (parseNameGuess raw).first_name, (parseNameGuess raw).last_name,
            aliasVariantsFor (parseNameGuess raw).first_name (parseNameGuess raw).last_name,
            1⟩] := by
      simp only [Players.registerP]
      rw [hcond f1 _]
    exact ⟨_, by rw [h1, h2], by simp [Players.mergeIntoP], by simp [Players.mergeIntoP]⟩

/-! ## C7: resolution of registered aliases and their folded forms -/

/-- C7 counterexample: seeding the corpus `(1, "Gómez"), (2, "Gomez")`
(a reachable state) leaves the alias `gómez` registered to 1 while its
accent-folded form `gomez` — the later record overwrote the shared folded
key — resolves to 2, so `resolve(fold_accents(X)) = I` fails. -/
theorem folded_alias_divergence_counterexample :
    kvGet stFold.kv (str "gómez") = some 1 ∧
    stripAcc (str "gómez") = str "gomez" ∧
    (Players.resolveP (str "gómez") stFold).result = some 1 ∧
    (Players.resolveP (str "gomez") stFold).result = some 2 := by
  decide

/-- C7 amended: if the alias `X` (a normalized key the cleaner leaves
unchanged) is registered to `I` and its accent-folded key is also bound to
`I` — the seeding, variant and heal paths write both forms together —
then resolving `X` and resolving `fold_accents(X)` both return `I`. -/
theorem resolve_registered_alias (st : Players.PlayerState) (X : Str) (I : Nat)
    (hfix : cleanDisplayName X = X) (hkey : pkey X = X)
    (h2 : kvGet st.kv X = some I)
    (hfix2 : cleanDisplayName (stripAcc X) = stripAcc X)
    (h3 : kvGet st.kv (pkey (stripAcc X)) = some I) :
    (Players.resolveP X st).result = some I ∧
    (Players.resolveP (stripAcc X) st).result = some I := by
  constructor
  · simp only [Players.resolveP, Players.kvHit, hfix, hkey, h2]
  · simp only [Players.resolveP, Players.kvHit, hfix2, h3]

theorem resolve_registered_alias_witness :
    cleanDisplayName (str "rafael nadal") = str "rafael nadal" ∧
    kvGet [(str "rafael nadal", 7)] (str "rafael nadal") = some 7 ∧
    (Players.resolveP (str "rafael nadal")
      ⟨[], [], [(str "rafael nadal", 7)], none⟩).result = some 7 ∧
    (Players.resolveP (stripAcc (str "rafael nadal"))
      ⟨[], [], [(str "rafael nadal", 7)], none⟩).result = some 7 := by
  refine ⟨by decide, by decide, ?_⟩
  have h := resolve_registered_alias ⟨[], [], [(str "rafael nadal", 7)], none⟩
    (str "rafael nadal") 7 (by decide) (by decide) (by decide) (by decide) (by decide)
  exact ⟨h.1, h.2⟩

/-! ## Token-structure lemmas -/

theorem splitRunsGo_sound (p : Char → Bool) :
    ∀ (l cur : Str), (∀ c ∈ cur, p c = false) →
      ∀ t ∈ splitRunsGo p cur l, t ≠ [] ∧ ∀ c ∈ t, p c = false := by
  intro l
  induction l with
  | nil =>
    intro cur hc t ht
    by_cases hcur : cur = []
    · simp [splitRunsGo, hcur] at ht
    · simp only [splitRunsGo, if_neg hcur, List.mem_singleton] at ht
      subst ht
      exact ⟨by simpa using hcur, fun c' hc' => hc c' (List.mem_reverse.1 hc')⟩
  | cons c rest ih =>
    intro cur hc t ht
    simp only [splitRunsGo] at ht
    by_cases hp : p c = true
    · rw [if_pos hp] at ht
      by_cases hcur : cur = []
      · rw [if_pos hcur] at ht
        exact ih [] (by simp) t ht
      · rw [if_neg hcur] at ht
        rcases List.mem_cons.1 ht with rfl | ht'
        · exact ⟨by simpa using hcur, fun c' hc' => hc c' (List.mem_reverse.1 hc')⟩
        · exact ih [] (by simp) t ht'
    · rw [if_neg hp] at ht
      refine ih (c :: cur) ?_ t ht
      intro c' hc'
      rcases List.mem_cons.1 hc' with rfl | h
      · exact Bool.eq_false_iff.2 hp
      · exact hc c' h

theorem splitRunsGo_chars (p : Char → Bool) :
    ∀ (l cur : Str), ∀ t ∈ splitRunsGo p cur l, ∀ c ∈ t, c ∈ cur ∨ c ∈ l := by
  intro l
  induction l with
  | nil =>
    intro cur t ht c hct
    by_cases hcur : cur = []
    · simp [splitRunsGo, hcur] at ht
    · simp only [splitRunsGo, if_neg hcur, List.mem_singleton] at ht
      subst ht
      exact Or.inl (List.mem_reverse.1 hct)
  | cons a rest ih =>
    intro cur t ht c hct
    simp only [splitRunsGo] at ht
    by_cases hp : p a = true
    · rw [if_pos hp] at ht
      by_cases hcur : cur = []
      · rw [if_pos hcur] at ht
        rcases ih [] t ht c hct with h | h
        · simp at h
        · exact Or.inr (List.mem_cons_of_mem _ h)
      · rw [if_neg hcur] at ht
        rcases List.mem_cons.1 ht with rfl | ht'
        · exact Or.inl (List.mem_reverse.1 hct)
        · rcases ih [] t ht' c hct with h | h
          · simp at h
          · exact Or.inr (List.mem_cons_of_mem _ h)
    · rw [if_neg hp] at ht
      rcases ih (a :: cur) t ht c hct with h | h
      · rcases List.mem_cons.1 h with rfl | h'
        · exact Or.inr (List.mem_cons_self _ _)
        · exact Or.inl h'
      · exact Or.inr (List.mem_cons_of_mem _ h)

theorem splitRuns_sound (p : Char → Bool) (l : Str) :
    ∀ t ∈ splitRuns p l, t ≠ [] ∧ (∀ c ∈ t, p c = false) ∧ (∀ c ∈ t, c ∈ l) := by
  intro t ht
  have h1 := splitRunsGo_sound p l [] (by simp) t ht
  have h2 := splitRunsGo_chars p l [] t ht
  exact ⟨h1.1, h1.2, fun c hc => (h2 c hc).resolve_left (by simp)⟩

theorem dedupGo_mem_iff : ∀ (l seen : List Str) (x : Str),
    x ∈ dedupGo seen l ↔ (x ∈ l ∧ x ∉ seen) := by
  intro l
  induction l with
  | nil => intro seen x; simp [dedupGo]
  | cons a rest ih =>
    intro seen x
    simp only [dedupGo]
    by_cases ha : a ∈ seen
    · rw [if_pos ha, ih]
      constructor
      · rintro ⟨h1, h2⟩; exact ⟨List.mem_cons_of_mem _ h1, h2⟩
      · rintro ⟨h1, h2⟩
        rcases List.mem_cons.1 h1 with rfl | h1'
        · exact absurd ha h2
        · exact ⟨h1', h2⟩
    · rw [if_neg ha]
      constructor
      · intro h
        rcases List.mem_cons.1 h with rfl | h'
        · exact ⟨List.mem_cons_self _ _, ha⟩
        · have := (ih _ _).1 h'
          refine ⟨List.mem_cons_of_mem _ this.1, fun hs => this.2 (List.mem_cons_of_mem _ hs)⟩
      · rintro ⟨h1, h2⟩
        rcases List.mem_cons.1 h1 with rfl | h1'
        · exact List.mem_cons_self _ _
        · by_cases hxa : x = a
          · subst hxa; exact List.mem_cons_self _ _
          · exact List.mem_cons_of_mem _ ((ih _ _).2 ⟨h1', by simp [hxa, h2]⟩)

theorem mem_dedupKeepFirst_iff (l : List Str) (x : Str) :
    x ∈ dedupKeepFirst l ↔ x ∈ l := by
  rw [dedupKeepFirst, dedupGo_mem_iff]
  simp

theorem joinSpace_eq_joinSep (toks : List Str) : joinSpace toks = joinSep ' ' toks := by
  cases toks <;> rfl

theorem joinSep_chars (sep : Char) (toks : List Str) :
    ∀ c ∈ joinSep sep toks, c = sep ∨ ∃ t ∈ toks, c ∈ t := by
  intro c hc
  cases toks with
  | nil => simp [joinSep] at hc
  | cons t rest =>
    simp only [joinSep, List.mem_append] at hc
    rcases hc with h | h
    · exact Or.inr ⟨t, List.mem_cons_self _ _, h⟩
    · obtain ⟨u, hu, hcu⟩ := List.mem_flatMap.1 h
      rcases List.mem_cons.1 hcu with rfl | h'
      · exact Or.inl rfl
      · exact Or.inr ⟨u, List.mem_cons_of_mem _ hu, h'⟩

theorem endsNonWs_of_noWs {x : Str} (hne : x ≠ [])
    (h : ∀ c ∈ x, isWsChar c = false) : endsNonWs x :=
  ⟨hne, fun a ha => h a (List.mem_of_mem_head? ha),
        fun a ha => h a (List.mem_of_mem_getLast? ha)⟩

theorem joinSpace_cons_cons (t u : Str) (rest : List Str) :
    joinSpace (t :: u :: rest) = t ++ ' ' :: joinSpace (u :: rest) := by
  simp [joinSpace]

theorem joinSpace_endsNonWs (toks : List Str) (hne : toks ≠ [])
    (hall : ∀ t ∈ toks, endsNonWs t) : endsNonWs (joinSpace toks) := by
  induction toks with
  | nil => exact absurd rfl hne
  | cons t rest ih =>
    have ht := hall t (List.mem_cons_self _ _)
    cases rest with
    | nil => simpa [joinSpace] using ht
    | cons u rest2 =>
      have hrest := ih (by simp) (fun v hv => hall v (List.mem_cons_of_mem _ hv))
      rw [joinSpace_cons_cons]
      refine ⟨by simp [ht.1], ?_, ?_⟩
      · intro a ha
        cases t with
        | nil => exact absurd rfl ht.1
        | cons c cs =>
          simp only [List.cons_append, List.head?_cons] at ha
          exact ht.2.1 a (by simpa using ha)
      · intro a ha
        rw [List.getLast?_append_of_ne_nil _ (by simp)] at ha
        have h2 : (' ' :: joinSpace (u :: rest2)).getLast? =
            (joinSpace (u :: rest2)).getLast? := by
          cases hj : joinSpace (u :: rest2) with
          | nil => exact absurd hj hrest.1
          | cons b bs => simp [List.getLast?_cons_cons]
        rw [h2] at ha
        exact hrest.2.2 a ha

theorem getLast?_cons_of_ne_nil {a : Char} {l : Str} (h : l ≠ []) :
    (a :: l).getLast? = l.getLast? := by
  cases l with
  | nil => exact absurd rfl h
  | cons b bs => simp [List.getLast?_cons_cons]

theorem mem_of_mem_trimWs {c : Char} {l : Str} (h : c ∈ trimWs l) : c ∈ l := by
  rw [trimWs] at h
  have h1 := List.mem_reverse.1 h
  have h2 := (List.dropWhile_sublist _).mem h1
  have h3 := List.mem_reverse.1 h2
  exact (List.dropWhile_sublist _).mem h3

theorem trimWs_eq_self {x : Str} (h : endsNonWs x) : trimWs x = x := by
  obtain ⟨hne, hh, hl⟩ := h
  have h1 : x.dropWhile isWsChar = x := by
    cases x with
    | nil => rfl
    | cons c rest =>
      rw [List.dropWhile_cons, if_neg]
      rw [hh c rfl]
      simp
  have h2 : x.reverse.dropWhile isWsChar = x.reverse := by
    cases hx : x.reverse with
    | nil => rfl
    | cons d ds =>
      rw [List.dropWhile_cons, if_neg]
      have : x.getLast? = some d := by
        rw [← List.head?_reverse, hx, List.head?_cons]
      rw [hl d this]
      simp
  rw [trimWs, h1, h2, List.reverse_reverse]

theorem isParticle_false_of_space (x : Str) (h : ' ' ∈ x) :
    isParticle x = false := by
  cases hb : isParticle x with
  | false => rfl
  | true =>
    exfalso
    simp only [isParticle, decide_eq_true_eq] at hb
    have hsp : ' ' ∈ toLowerStr x := by
      refine List.mem_map.2 ⟨' ', h, ?_⟩
      rfl
    have : ∀ p ∈ surnameParticles, ' ' ∉ p := by decide
    exact this _ hb hsp

/-! ## Candidate-core structure (for C8) -/

theorem firstCores_sound (given : Str) :
    ∀ f ∈ firstCores given, f ≠ [] ∧ ∀ c ∈ f, isWsChar c = false := by
  intro f hf
  rw [firstCores] at hf
  cases hs : splitWs given with
  | nil => rw [hs] at hf; simp at hf
  | cons t0 ts =>
    rw [hs] at hf
    replace hf : f ∈ (if '-' ∈ t0 then
        (match splitRuns (fun c => c = '-') t0 with
         | [] => [t0]
         | parts => dedupKeepFirst (t0 :: parts ++ [initialsDotted parts, initialsCompact parts]))
      else [t0]) := hf
    have ht0 : t0 ≠ [] ∧ (∀ c ∈ t0, isWsChar c = false) ∧ (∀ c ∈ t0, c ∈ given) := by
      have := splitRuns_sound isWsChar given t0 (by rw [← splitWs, hs]; exact List.mem_cons_self _ _)
      exact this
    by_cases hhy : '-' ∈ t0
    · rw [if_pos hhy] at hf
      cases hp : splitRuns (fun c => c = '-') t0 with
      | nil => rw [hp] at hf; simp only [List.mem_singleton] at hf; exact hf ▸ ⟨ht0.1, ht0.2.1⟩
      | cons p ps =>
        rw [hp] at hf
        rw [mem_dedupKeepFirst_iff] at hf
        have hparts : ∀ q ∈ p :: ps, q ≠ [] ∧ ∀ c ∈ q, isWsChar c = false := by
          intro q hq
          have := splitRuns_sound (fun c => c = '-') t0 q (hp ▸ hq)
          exact ⟨this.1, fun c hc => ht0.2.1 c (this.2.2 c hc)⟩
        rcases List.mem_cons.1 hf with rfl | hf'
        · exact ⟨ht0.1, ht0.2.1⟩
        rcases List.mem_append.1 hf' with hf2 | hf2
        · exact hparts f hf2
        rcases List.mem_cons.1 hf2 with rfl | hf3
        · -- dotted initials
          constructor
          · simp [initialsDotted]
          · intro c hc
            rcases List.mem_append.1 hc with hc1 | hc1
            · rcases joinSep_chars '.' _ c hc1 with rfl | ⟨t, ht, hct⟩
              · decide
              · obtain ⟨q, hq, rfl⟩ := List.mem_map.1 ht
                rcases List.mem_singleton.1 hct with rfl
                have hq' := hparts q hq
                exact hq'.2 _ (by
                  cases q with
                  | nil => exact absurd rfl hq'.1
                  | cons a as => exact List.mem_cons_self _ _)
            · rcases List.mem_singleton.1 hc1 with rfl
              decide
        rcases List.mem_singleton.1 hf3 with rfl
        · -- compact initials
          constructor
          · simp [initialsCompact]
          · intro c hc
            obtain ⟨q, hq, rfl⟩ := List.mem_map.1 hc
            have hq' := hparts q hq
            exact hq'.2 _ (by
              cases q with
              | nil => exact absurd rfl hq'.1
              | cons a as => exact List.mem_cons_self _ _)
    · rw [if_neg hhy] at hf
      rcases List.mem_singleton.1 hf with rfl
      exact ⟨ht0.1, ht0.2.1⟩

theorem findIdx?_drop_spec {α : Type} (p : α → Bool) :
    ∀ (l : List α) (i k : Nat), List.findIdx? p l i = some k →
      i ≤ k ∧ ∃ x rest, l.drop (k - i) = x :: rest ∧ p x = true := by
  intro l
  induction l with
  | nil => intro i k h; rw [List.findIdx?_nil] at h; exact Option.noConfusion h
  | cons a xs ih =>
    intro i k h
    rw [List.findIdx?_cons] at h
    by_cases hp : p a = true
    · rw [if_pos hp] at h
      have : i = k := Option.some.inj h
      subst this
      exact ⟨Nat.le_refl _, a, xs, by simp, hp⟩
    · rw [if_neg hp] at h
      obtain ⟨hle, x, rest, hdrop, hx⟩ := ih (i + 1) k h
      refine ⟨by omega, x, rest, ?_, hx⟩
      have hki : k - i = (k - (i + 1)) + 1 := by omega
      rw [hki, List.drop_succ_cons, hdrop]

theorem getD_eq_headD_drop {α : Type} (l : List α) (k : Nat) (d : α) :
    l.getD k d = (l.drop k).headD d := by
  induction l generalizing k with
  | nil => simp
  | cons a as ih =>
    cases k with
    | zero => simp
    | succ n =>
      simp only [List.getD_cons_succ, List.drop_succ_cons]
      exact ih n

theorem lastCores_endsNonWs (surname : Str)
    (hws : ∀ t ∈ tokenize surname, ∀ c ∈ t, isWsChar c = false) :
    ∀ x ∈ lastCores surname, endsNonWs x := by
  intro x hx
  rw [lastCores] at hx
  cases htk : tokenize surname with
  | nil => rw [htk] at hx; simp at hx
  | cons t0 ts =>
    rw [htk] at hx
    replace hx : x ∈ (match List.findIdx? (fun t => !isParticle t) (t0 :: ts).reverse with
      | none => [joinSpace (t0 :: ts)]
      | some k =>
        (dedupKeepFirst ([joinSpace (t0 :: ts), (t0 :: ts).reverse.getD k [],
          joinSpace ((((t0 :: ts).reverse.drop k).take
            ((((t0 :: ts).reverse.drop (k + 1)).takeWhile isParticle).length + 1)).reverse)] ++
          (match (t0 :: ts).reverse.drop (k + 1) with
           | prevTok :: _ =>
             if !isParticle prevTok then
               [joinSpace [prevTok, (t0 :: ts).reverse.getD k []]]
             else []
           | [] => []))).filter (fun v => !isParticle (trimWs v))) := hx
    have htoks : ∀ t ∈ t0 :: ts, endsNonWs t := by
      intro t ht
      have hs := splitRuns_sound (fun c => c = ' ' || c = '\t' || c = '-') surname t
        (by rw [← tokenize, htk]; exact ht)
      exact endsNonWs_of_noWs hs.1 (fun c hc => hws t (htk ▸ ht) c hc)
    have hjoin : ∀ (sub : List Str), sub ≠ [] → (∀ t ∈ sub, t ∈ t0 :: ts) →
        endsNonWs (joinSpace sub) := by
      intro sub hne hsub
      exact joinSpace_endsNonWs sub hne (fun t ht => htoks t (hsub t ht))
    cases hfi : (t0 :: ts).reverse.findIdx? (fun t => !isParticle t) with
    | none =>
      rw [hfi] at hx
      rcases List.mem_singleton.1 hx with rfl
      exact hjoin _ (by simp) (fun t ht => ht)
    | some k =>
      rw [hfi] at hx
      obtain ⟨-, y, yrest, hdrop, -⟩ := findIdx?_drop_spec _ _ 0 k hfi
      rw [Nat.sub_zero] at hdrop
      rw [List.mem_filter] at hx
      rw [mem_dedupKeepFirst_iff] at hx
      have hx := hx.1
      have hyrev : y ∈ (t0 :: ts).reverse := List.mem_of_mem_drop (hdrop ▸ List.mem_cons_self y yrest)
      have hymem : y ∈ t0 :: ts := List.mem_reverse.1 hyrev
      have hlastNP : ((t0 :: ts).reverse.getD k []) = y := by
        rw [getD_eq_headD_drop, hdrop]; rfl
      rcases List.mem_cons.1 hx with rfl | hx1
      · exact hjoin _ (by simp) (fun t ht => ht)
      rcases List.mem_cons.1 hx1 with rfl | hx2
      · rw [hlastNP]; exact htoks y hymem
      rcases List.mem_cons.1 hx2 with rfl | hx3
      · -- core with particles
        refine hjoin _ ?_ ?_
        · have : ((t0 :: ts).reverse.drop k).take
              (((((t0 :: ts).reverse.drop (k+1)).takeWhile isParticle).length) + 1) =
              y :: (yrest.take ((((t0 :: ts).reverse.drop (k+1)).takeWhile isParticle).length)) := by
            rw [hdrop]; rfl
          rw [this]
          simp
        · intro t ht
          rw [List.mem_reverse] at ht
          exact List.mem_reverse.1 (List.mem_of_mem_drop (List.mem_of_mem_take ht))
      · -- the optional adjacent-pair entry
        cases hafter : (t0 :: ts).reverse.drop (k + 1) with
        | nil =>
          rw [hafter] at hx3
          replace hx3 : x ∈ ([] : List Str) := hx3
          simp at hx3
        | cons prevTok arest =>
          rw [hafter] at hx3
          replace hx3 : x ∈ (if !isParticle prevTok then
              [joinSpace [prevTok, (t0 :: ts).reverse.getD k []]] else []) := hx3
          by_cases hpart : isParticle prevTok = true
          · simp [hpart] at hx3
          · rw [if_pos (by simp [hpart])] at hx3
            rcases List.mem_singleton.1 hx3 with rfl
            refine hjoin _ (by simp) ?_
            intro t ht
            rcases List.mem_cons.1 ht with rfl | ht'
            · exact List.mem_reverse.1
                (List.mem_of_mem_drop (hafter ▸ List.mem_cons_self _ arest))
            rcases List.mem_cons.1 ht' with rfl | ht''
            · rw [hlastNP]; exact hymem
            · simp at ht''

/-! ## C8: candidate generation under set-iteration orders -/

/-- C8 counterexample: on the cleaned input `al, seed 3` (the cleaner's
image of `al, seed!3`), re-cleaning inside the flip helper removes the
noise tail together with the comma, and the emitted "flipped" candidate is
the bare surname particle `al`. -/
theorem bare_particle_candidate_counterexample :
    cleanDisplayName (str "al, seed!3") = str "al, seed 3" ∧
    str "al" ∈ Players.commaCandidates (str "al, seed 3") ∧
    isParticle (trimWs (str "al")) = true := by
  decide

theorem commaCandidatesWith_perm (σf σl : List Str → List Str)
    (hf : ∀ l, List.Perm (σf l) l) (hl : ∀ l, List.Perm (σl l) l) (orig : Str) :
    List.Perm (Players.commaCandidatesWith σf σl orig) (Players.commaCandidates orig) := by
  rw [Players.commaCandidates, Players.commaCandidatesWith, Players.commaCandidatesWith]
  refine List.Perm.append (List.Perm.refl _) ?_
  rw [Players.commaCombosWith, Players.commaCombosWith]
  refine List.Perm.trans ((hf _).flatMap_right _) ?_
  exact List.Perm.flatMap_left _ (fun a _ => (hl _).map _)

/-- No first-core × last-core combination is a bare particle, provided the
input's whitespace is limited to spaces and tabs (the separators the
tokenizer splits on): each combination keeps the space between a nonempty
whitespace-free first core and a last core with non-whitespace endpoints,
and no surname particle contains a space. -/
theorem commaCombos_no_particle (σf σl : List Str → List Str)
    (hf : ∀ l, List.Perm (σf l) l) (hl : ∀ l, List.Perm (σl l) l) (orig : Str)
    (hws : ∀ c ∈ orig, isWsChar c = true → (c = ' ' ∨ c = '\t')) :
    ∀ cand ∈ Players.commaCombosWith σf σl orig, isParticle (trimWs cand) = false := by
  intro cand hcand
  rw [Players.commaCombosWith] at hcand
  obtain ⟨f, hfmem, hcand⟩ := List.mem_flatMap.1 hcand
  obtain ⟨l, hlmem, rfl⟩ := List.mem_map.1 hcand
  have hfmem' : f ∈ firstCores (trimWs ((orig.dropWhile (fun c => c ≠ ',')).drop 1)) :=
    (hf _).mem_iff.1 hfmem
  have hlmem' : l ∈ lastCores (trimWs (orig.takeWhile (fun c => c ≠ ','))) :=
    (hl _).mem_iff.1 hlmem
  have hfprop := firstCores_sound _ f hfmem'
  have hlast : endsNonWs l := by
    refine lastCores_endsNonWs _ ?_ l hlmem'
    intro t ht c hc
    have hsound := splitRuns_sound (fun c => c = ' ' || c = '\t' || c = '-') _ t ht
    have hc1 := hsound.2.1 c hc
    have hc2 : c ∈ orig := by
      have := hsound.2.2 c hc
      have h3 : c ∈ orig.takeWhile (fun c => c ≠ ',') := by
        exact mem_of_mem_trimWs this
      exact (List.takeWhile_sublist _).mem h3
    cases hcw : isWsChar c with
    | false => rfl
    | true =>
      exfalso
      rcases hws c hc2 hcw with rfl | rfl <;> simp at hc1
  have hends : endsNonWs (f ++ ' ' :: l) := by
    refine ⟨by simp [hfprop.1], ?_, ?_⟩
    · intro a ha
      cases hfc : f with
      | nil => exact absurd hfc hfprop.1
      | cons c cs =>
        rw [hfc, List.cons_append, List.head?_cons] at ha
        have hca : a = c := (Option.some.inj ha).symm
        subst hca
        exact hfprop.2 a (hfc ▸ List.mem_cons_self a cs)
    · intro a ha
      rw [List.getLast?_append_of_ne_nil _ (by simp)] at ha
      rw [getLast?_cons_of_ne_nil hlast.1] at ha
      exact hlast.2.2 a ha
  rw [trimWs_eq_self hends, trimWs_eq_self hends]
  exact isParticle_false_of_space _ (List.mem_append.2 (Or.inr (List.mem_cons_self _ _)))

/-- C8 amended: the comma-branch candidate list is determined by the input
up to the iteration order of the materialised core sets — any two orders
yield permutations of one another — and no core-combination candidate is a
bare surname particle for inputs whose whitespace is spaces/tabs; the
comma-inverted ("flipped") candidate, however, can degenerate to a bare
particle when re-cleaning strips the comma, and Python's set order makes
the exact sequence hash-seed dependent rather than stable across runs. -/
theorem candidate_generation_stable (σf σl : List Str → List Str)
    (hf : ∀ l, List.Perm (σf l) l) (hl : ∀ l, List.Perm (σl l) l) (orig : Str)
    (hws : ∀ c ∈ orig, isWsChar c = true → (c = ' ' ∨ c = '\t')) :
    List.Perm (Players.commaCandidatesWith σf σl orig) (Players.commaCandidates orig) ∧
    ∀ cand ∈ Players.commaCombosWith σf σl orig, isParticle (trimWs cand) = false :=
  ⟨commaCandidatesWith_perm σf σl hf hl orig,
   commaCombos_no_particle σf σl hf hl orig hws⟩

theorem candidate_generation_stable_witness :
    List.Perm
      (Players.commaCandidatesWith List.reverse List.reverse (str "Struff, Jan-Lennard"))
      (Players.commaCandidates (str "Struff, Jan-Lennard")) ∧
    isParticle (trimWs (str "Jan-Lennard Struff")) = false := by
  have h := candidate_generation_stable List.reverse List.reverse
    (fun l => List.reverse_perm l) (fun l => List.reverse_perm l)
    (str "Struff, Jan-Lennard") (by decide)
  refine ⟨h.1, ?_⟩
  exact h.2 (str "Jan-Lennard Struff") (by decide)

/-! ## C10: empty lookup keys -/

set_option maxHeartbeats 2000000 in
/-- C10 counterexample: registering the whitespace-only raw name `" "`
puts the empty string into the proposal's alias set (its title-cased guess
is empty), and approving the proposal migrates it into the store unguarded:
the empty string becomes a key of the tournament alias keyspace. -/
theorem empty_alias_key_counterexample :
    ((Tournaments.registerT 1 (str " ") ⟨1, [], [], []⟩).1.queue.headD
        ⟨0, [], [], [], 0⟩).aliases = [[], [' ']] ∧
    kvGet (Players.approveKvT 1 [] [] [] []
      (Tournaments.registerT 1 (str " ") ⟨1, [], [], []⟩).1) [] = some 1 := by
  decide

theorem kvGet_upsertMany_empty_of_keys_ne (pairs : List (Str × Nat)) (kv : KV)
    (h : ∀ q ∈ pairs, q.1 ≠ []) :
    kvGet (upsertMany kv pairs) [] = kvGet kv [] := by
  refine kvGet_upsertMany_notMem pairs kv [] ?_
  intro hmem
  obtain ⟨q, hq, hq1⟩ := List.mem_map.1 hmem
  exact h q hq hq1

theorem keyPairs_keys_ne (uid : Nat) (vs : List Str) :
    ∀ q ∈ Players.keyPairs uid vs, q.1 ≠ [] := by
  intro q hq
  obtain ⟨v, _, hv⟩ := List.mem_filterMap.1 hq
  by_cases h : pkey v ≠ []
  · rw [if_pos h] at hv
    cases hv
    exact h
  · rw [if_neg h] at hv
    exact Option.noConfusion hv

theorem healPairs_keys_ne (orig cand : Str) (uid : Nat) :
    ∀ q ∈ Players.healPairs orig cand uid, q.1 ≠ [] :=
  keyPairs_keys_ne uid _

theorem resolveFallbackP_kv (orig : Str) (cands : List Str) (st : Players.PlayerState) :
    (Players.resolveFallbackP orig cands st).state.kv = st.kv := by
  simp only [Players.resolveFallbackP]
  repeat' split
  all_goals rfl

set_option maxHeartbeats 1000000 in
theorem resolveP_preserves_empty_key (raw : Str) (st : Players.PlayerState) :
    kvGet (Players.resolveP raw st).state.kv [] = kvGet st.kv [] := by
  unfold Players.resolveP
  dsimp only
  repeat' split
  all_goals
    first
    | rfl
    | (rw [resolveFallbackP_kv])
    | (exact kvGet_upsertMany_empty_of_keys_ne _ _ (healPairs_keys_ne _ _ _))

theorem resolveT_preserves_empty_key (raw : Str) (st : Tournaments.TourState) :
    kvGet (Tournaments.resolveT raw st).state.kv [] = kvGet st.kv [] := by
  simp only [Tournaments.resolveT]
  split
  · rfl
  · split
    · rfl
    · split
      · rfl
      · refine kvGet_upsertMany_empty_of_keys_ne _ _ ?_
        intro q hq
        rcases List.mem_append.1 hq with h | h
        · by_cases h1 : pkey raw ≠ []
          · rw [if_pos h1] at h
            rcases List.mem_singleton.1 h with rfl
            exact h1
          · rw [if_neg h1] at h
            simp at h
        · by_cases h2 : (pkey (stripAcc raw) ≠ [] && pkey (stripAcc raw) ≠ pkey raw) = true
          · rw [if_pos h2] at h
            rcases List.mem_singleton.1 h with rfl
            simp only [Bool.and_eq_true, decide_eq_true_eq] at h2
            exact h2.1
          · rw [if_neg h2] at h
            simp at h

theorem seedPairsRec_keys_ne (uid : Nat) (r : Players.PRec) :
    ∀ q ∈ Players.seedPairsRec uid r, q.1 ≠ [] := by
  intro q hq
  rw [Players.seedPairsRec] at hq
  repeat' split at hq
  all_goals first
  | exact keyPairs_keys_ne uid _ q hq
  | simp at hq

theorem seedVariantPairsRec_keys_ne (uid : Nat) (r : Players.PRec) :
    ∀ q ∈ Players.seedVariantPairsRec uid r, q.1 ≠ [] := by
  intro q hq
  rw [Players.seedVariantPairsRec] at hq
  repeat' split at hq
  all_goals first
  | (rcases List.mem_append.1 hq with h | h <;> exact keyPairs_keys_ne uid _ q h)
  | simp at hq

theorem kvSet_keys_ne (kv : KV) (k : Str) (v : Nat)
    (hkv : ∀ q ∈ kv, q.1 ≠ []) (hk : k ≠ []) :
    ∀ q ∈ kvSet kv k v, q.1 ≠ [] := by
  induction kv with
  | nil =>
    intro q hq
    rcases List.mem_singleton.1 hq with rfl
    exact hk
  | cons p rest ih =>
    obtain ⟨pk, pw⟩ := p
    intro q hq
    rw [kvSet] at hq
    split at hq
    · rcases List.mem_cons.1 hq with rfl | h
      · exact hk
      · exact hkv _ (List.mem_cons_of_mem _ h)
    · rcases List.mem_cons.1 hq with rfl | h
      · exact hkv _ (List.mem_cons_self _ _)
      · exact ih (fun r hr => hkv r (List.mem_cons_of_mem _ hr)) _ h

theorem canonicalIndexT_keys_ne (data : List (Nat × Tournaments.TourRec)) :
    ∀ q ∈ Tournaments.canonicalIndexT data, q.1 ≠ [] := by
  rw [Tournaments.canonicalIndexT]
  suffices h : ∀ (d : List (Nat × Tournaments.TourRec)) (acc : List (Str × Nat)),
      (∀ q ∈ acc, q.1 ≠ []) →
      ∀ q ∈ d.foldl (fun idx e =>
        if pkey (stripAcc e.2.canonical_name) ≠ [] then
          kvSet idx (pkey (stripAcc e.2.canonical_name)) e.1 else idx) acc, q.1 ≠ [] by
    exact h data [] (by simp)
  intro d
  induction d with
  | nil => intro acc hacc q hq; exact hacc q hq
  | cons e rest ih =>
    intro acc hacc q hq
    rw [List.foldl_cons] at hq
    by_cases hk : pkey (stripAcc e.2.canonical_name) ≠ []
    · rw [if_pos hk] at hq
      exact ih _ (kvSet_keys_ne acc _ e.1 hacc hk) q hq
    · rw [if_neg hk] at hq
      exact ih acc hacc q hq

/-- C10 amended: the canonical-seeding paths of both domains, the
variant-seeding path, and both resolver auto-heal paths never insert the
empty string as a lookup key (each guards its keys with the `if k:` test);
proposal alias migration lacks the guard, and the empty key is reachable
through it (see the counterexample). -/
theorem no_empty_key_on_guarded_paths (st : Players.PlayerState)
    (stT : Tournaments.TourState) (raw : Str) :
    kvGet (Players.resolveP raw st).state.kv [] = kvGet st.kv [] ∧
    kvGet (Tournaments.resolveT raw stT).state.kv [] = kvGet stT.kv [] ∧
    kvGet (Players.seedCanonicalsP st).kv [] = kvGet st.kv [] ∧
    kvGet (Players.seedAllVariantsP st).kv [] = kvGet st.kv [] ∧
    kvGet (Tournaments.seedT stT).kv [] = kvGet stT.kv [] := by
  refine ⟨resolveP_preserves_empty_key raw st, resolveT_preserves_empty_key raw stT, ?_, ?_, ?_⟩
  · refine kvGet_upsertMany_empty_of_keys_ne _ _ ?_
    intro q hq
    obtain ⟨e, _, hqe⟩ := List.mem_flatMap.1 hq
    exact seedPairsRec_keys_ne e.1 e.2 q hqe
  · refine kvGet_upsertMany_empty_of_keys_ne _ _ ?_
    intro q hq
    obtain ⟨e, _, hqe⟩ := List.mem_flatMap.1 hq
    exact seedVariantPairsRec_keys_ne e.1 e.2 q hqe
  · refine kvGet_upsertMany_empty_of_keys_ne _ _ ?_
    intro q hq
    obtain ⟨e, he, hqe⟩ := List.mem_flatMap.1 hq
    rcases List.mem_cons.1 hqe with rfl | h
    · exact canonicalIndexT_keys_ne stT.data e he
    · revert h
      split <;> intro h
      · rcases List.mem_singleton.1 h with rfl
        simp_all
      · simp at h

/-! ## C4: the cleaner and idempotence -/

/-- C4 counterexample: cleaning exposes a fresh noise pattern — the
character filter turns `seed!3` into `seed 3`, which the next cleaning
pass deletes entirely. -/
theorem clean_not_idempotent_counterexample :
    cleanDisplayName (str "seed!3") = str "seed 3" ∧
    cleanDisplayName (cleanDisplayName (str "seed!3")) = [] ∧
    cleanDisplayName (cleanDisplayName (str "seed!3")) ≠ cleanDisplayName (str "seed!3") := by
  decide

theorem head?_dropWhile_not (p : Char → Bool) (l : Str) :
    ∀ a, (l.dropWhile p).head? = some a → p a = false := by
  induction l with
  | nil => intro a h; simp at h
  | cons c rest ih =>
    intro a h
    rw [List.dropWhile_cons] at h
    by_cases hc : p c = true
    · rw [if_pos hc] at h; exact ih a h
    · rw [if_neg hc, List.head?_cons] at h
      obtain rfl : c = a := Option.some.inj h
      exact Bool.eq_false_iff.2 hc

theorem dropWhile_idem (p : Char → Bool) (l : Str) :
    List.dropWhile p (List.dropWhile p l) = List.dropWhile p l := by
  induction l with
  | nil => rfl
  | cons c rest ih =>
    rw [List.dropWhile_cons]
    by_cases hc : p c = true
    · rw [if_pos hc]; exact ih
    · rw [if_neg hc, List.dropWhile_cons, if_neg hc]

theorem dropWhile_eq_self_of_head (p : Char → Bool) (l : Str)
    (h : ∀ a, l.head? = some a → p a = false) : List.dropWhile p l = l := by
  cases l with
  | nil => rfl
  | cons c rest =>
    rw [List.dropWhile_cons, if_neg]
    rw [h c rfl]
    simp

/-- Stripping a character class from both ends yields an infix. -/
theorem stripEnds_within (p : Char → Bool) (l : Str) :
    ((l.dropWhile p).reverse.dropWhile p).reverse <:+: l := by
  have h1 : List.dropWhile p l <:+ l := List.dropWhile_suffix p
  have h2 : ((l.dropWhile p).reverse.dropWhile p).reverse <+: List.dropWhile p l := by
    apply List.reverse_suffix.mp
    rw [List.reverse_reverse]
    exact List.dropWhile_suffix p
  obtain ⟨s, hs⟩ := h1
  obtain ⟨t, ht⟩ := h2
  exact ⟨s, t, by rw [List.append_assoc, ht, hs]⟩

theorem stripEnds_idem (p : Char → Bool) (l : Str) :
    ((((((l.dropWhile p).reverse.dropWhile p).reverse).dropWhile p).reverse.dropWhile p).reverse) =
      ((l.dropWhile p).reverse.dropWhile p).reverse := by
  have hA : (((l.dropWhile p).reverse.dropWhile p).reverse).reverse.dropWhile p =
      (((l.dropWhile p).reverse.dropWhile p).reverse).reverse := by
    rw [List.reverse_reverse]
    exact dropWhile_idem p _
  have hB : (((l.dropWhile p).reverse.dropWhile p).reverse).dropWhile p =
      ((l.dropWhile p).reverse.dropWhile p).reverse := by
    refine dropWhile_eq_self_of_head p _ ?_
    intro a ha
    have hpre : ((l.dropWhile p).reverse.dropWhile p).reverse <+: l.dropWhile p := by
      apply List.reverse_suffix.mp
      rw [List.reverse_reverse]
      exact List.dropWhile_suffix p
    obtain ⟨t, ht⟩ := hpre
    have : (l.dropWhile p).head? = some a := by
      rw [← ht]
      cases hy : ((l.dropWhile p).reverse.dropWhile p).reverse with
      | nil => rw [hy] at ha; simp at ha
      | cons c cs =>
        rw [hy] at ha
        rw [List.cons_append, List.head?_cons]
        rwa [List.head?_cons] at ha
    exact head?_dropWhile_not p l a this
  rw [hB, hA, List.reverse_reverse]

theorem stripPunct_idem (l : Str) : stripPunct (stripPunct l) = stripPunct l :=
  stripEnds_idem isStripChar l

/-! ### Characters surviving the pipeline -/

theorem allowedStr_charFilter (l : Str) : allowedStr (charFilter l) := by
  intro c hc
  obtain ⟨d, _, rfl⟩ := List.mem_map.1 hc
  by_cases hd : isAllowedChar d = true
  · rwa [if_pos hd]
  · rw [if_neg hd]; decide

theorem collapseGo_chars :
    ∀ (l : Str) (stt : WsRun), ∀ c ∈ collapseGo stt l,
      c ∈ wsFlush stt ∨ c ∈ l ∨ c = ' ' := by
  intro l
  induction l with
  | nil => intro stt c hc; exact Or.inl hc
  | cons a rest ih =>
    intro stt c hc
    rw [collapseGo] at hc
    by_cases ha : isWsChar a = true
    · rw [if_pos ha] at hc
      rcases ih (wsPush stt a) c hc with h | h | h
      · cases stt with
        | empty =>
          rcases List.mem_singleton.1 h with rfl
          exact Or.inr (Or.inl (List.mem_cons_self _ _))
        | one w =>
          rcases List.mem_singleton.1 h with rfl
          exact Or.inr (Or.inr rfl)
        | many =>
          rcases List.mem_singleton.1 h with rfl
          exact Or.inr (Or.inr rfl)
      · exact Or.inr (Or.inl (List.mem_cons_of_mem _ h))
      · exact Or.inr (Or.inr h)
    · rw [if_neg ha] at hc
      rcases List.mem_append.1 hc with h | h
      · exact Or.inl h
      · rcases List.mem_cons.1 h with rfl | h2
        · exact Or.inr (Or.inl (List.mem_cons_self _ _))
        · rcases ih .empty c h2 with h3 | h3 | h3
          · simp [wsFlush] at h3
          · exact Or.inr (Or.inl (List.mem_cons_of_mem _ h3))
          · exact Or.inr (Or.inr h3)

theorem allowedStr_collapseWs (l : Str) (h : allowedStr l) : allowedStr (collapseWs l) := by
  intro c hc
  rcases collapseGo_chars l .empty c hc with h1 | h1 | h1
  · simp [wsFlush] at h1
  · exact h c h1
  · subst h1; decide

theorem allowedStr_clean (s : Str) : allowedStr (cleanDisplayName s) := by
  intro c hc
  have hinf : cleanDisplayName s <:+: collapseWs (charFilter (cleanSub (preClean s))) :=
    stripEnds_within isStripChar _
  exact allowedStr_collapseWs _ (allowedStr_charFilter _) c (hinf.subset hc)

theorem preChar_allowed {c : Char} (h : isAllowedChar c = true) : preChar c = some c := by
  by_cases h1 : c = '​'
  · subst h1; exact absurd h (by decide)
  by_cases h2 : c = '–'
  · subst h2; exact absurd h (by decide)
  by_cases h3 : c = '—'
  · subst h3; exact absurd h (by decide)
  by_cases h4 : c = '’'
  · subst h4; exact absurd h (by decide)
  by_cases h5 : c = '`'
  · subst h5; exact absurd h (by decide)
  simp [preChar, h1, h2, h3, h4, h5]

theorem preClean_id : ∀ l : Str, allowedStr l → preClean l = l := by
  intro l
  induction l with
  | nil => intro _; rfl
  | cons c rest ih =>
    intro h
    have h1 := preChar_allowed (h c (List.mem_cons_self _ _))
    have h2 : allowedStr rest := fun d hd => h d (List.mem_cons_of_mem _ hd)
    show List.filterMap preChar (c :: rest) = c :: rest
    rw [List.filterMap_cons, h1]
    show c :: preClean rest = c :: rest
    rw [ih h2]

theorem charFilter_id : ∀ l : Str, allowedStr l → charFilter l = l := by
  intro l
  induction l with
  | nil => intro _; rfl
  | cons c rest ih =>
    intro h
    show (if isAllowedChar c then c else ' ') :: charFilter rest = c :: rest
    rw [if_pos (h c (List.mem_cons_self _ _)), ih (fun d hd => h d (List.mem_cons_of_mem _ hd))]

/-! ### Whitespace runs after collapsing -/

theorem noTwoWs_collapseGo :
    ∀ (l : Str) (stt : WsRun), noTwoWs (collapseGo stt l) := by
  intro l
  induction l with
  | nil =>
    intro stt
    cases stt <;> simp [noTwoWs, collapseGo, wsFlush]
  | cons a rest ih =>
    intro stt
    rw [collapseGo]
    by_cases ha : isWsChar a = true
    · rw [if_pos ha]; exact ih (wsPush stt a)
    · rw [if_neg ha]
      rw [noTwoWs, List.chain'_append]
      refine ⟨?_, ?_, ?_⟩
      · cases stt <;> simp [wsFlush]
      · rw [List.chain'_cons']
        exact ⟨fun y _ => by simp [ha], ih .empty⟩
      · intro x _ y hy
        rw [List.head?_cons] at hy
        obtain rfl : a = y := Option.some.inj hy
        simp [ha]

theorem noTwoWs_collapseWs (l : Str) : noTwoWs (collapseWs l) :=
  noTwoWs_collapseGo l .empty

theorem noTwoWs_clean (s : Str) : noTwoWs (cleanDisplayName s) :=
  List.Chain'.infix (noTwoWs_collapseWs (charFilter (cleanSub (preClean s))))
    (stripEnds_within isStripChar _)

theorem collapseWs_id : ∀ l : Str, noTwoWs l → collapseWs l = l := by
  intro l
  induction l with
  | nil => intro _; rfl
  | cons c rest ih =>
    intro h
    have htail : noTwoWs rest := h.tail
    show collapseGo .empty (c :: rest) = c :: rest
    rw [collapseGo]
    by_cases hc : isWsChar c = true
    · rw [if_pos hc]
      cases rest with
      | nil => rfl
      | cons d r2 =>
        have hd : isWsChar d = false := by
          have hrel := (List.chain'_cons.1 h).1
          rw [Bool.eq_false_iff]
          intro hd
          exact hrel ⟨hc, hd⟩
        have ihrest : collapseGo .empty (d :: r2) = d :: r2 := ih htail
        rw [collapseGo, if_neg (by rw [hd]; simp)] at ihrest
        show collapseGo (WsRun.one c) (d :: r2) = c :: d :: r2
        rw [collapseGo, if_neg (by rw [hd]; simp)]
        have h2 : collapseGo WsRun.empty r2 = r2 := by
          have := ihrest
          simp only [wsFlush, List.nil_append] at this
          exact List.cons.inj this |>.2
        rw [h2]
        rfl
    · rw [if_neg hc]
      have : collapseGo WsRun.empty rest = rest := ih htail
      rw [this]
      rfl

/-- C4 amended: the cleaner is total and deterministic, and idempotent on
every input whose cleaned form the noise-pattern pass leaves unchanged;
re-cleaning can differ only when character filtering or whitespace
collapsing exposes a fresh noise pattern (as in `seed!3` → `seed 3` → ``). -/
theorem clean_idempotent_on_noise_fixed (s : Str)
    (h : cleanSub (cleanDisplayName s) = cleanDisplayName s) :
    cleanDisplayName (cleanDisplayName s) = cleanDisplayName s := by
  have hall : allowedStr (cleanDisplayName s) := allowedStr_clean s
  have h1 : cleanDisplayName (cleanDisplayName s) =
      stripPunct (collapseWs (charFilter (cleanSub (preClean (cleanDisplayName s))))) := rfl
  rw [h1, preClean_id _ hall, h, charFilter_id _ hall, collapseWs_id _ (noTwoWs_clean s)]
  exact stripPunct_idem _

theorem clean_idempotent_on_noise_fixed_witness :
    cleanSub (cleanDisplayName (str "Rafael Nadal")) = cleanDisplayName (str "Rafael Nadal") ∧
    cleanDisplayName (cleanDisplayName (str "Rafael Nadal")) = cleanDisplayName (str "Rafael Nadal") :=
  ⟨by decide, clean_idempotent_on_noise_fixed (str "Rafael Nadal") (by decide)⟩

/-! ## Whitespace preservation of the character maps (for C9) -/

theorem toNat_ofNat_lt (n : Nat) (h : n < 55296) : (Char.ofNat n).toNat = n := by
  rw [Char.ofNat, dif_pos (Or.inl h)]
  rw [Char.ofNatAux]
  simp [Char.toNat, UInt32.toNat]

theorem isWsChar_false_of_gt {x : Char} (h : 32 < x.toNat) : isWsChar x = false := by
  have h1 : x ≠ ' ' := fun he => absurd (he ▸ h) (by decide)
  have h2 : x ≠ '\t' := fun he => absurd (he ▸ h) (by decide)
  have h3 : x ≠ '\n' := fun he => absurd (he ▸ h) (by decide)
  have h4 : x ≠ '\r' := fun he => absurd (he ▸ h) (by decide)
  have h5 : x ≠ '\x0b' := fun he => absurd (he ▸ h) (by decide)
  have h6 : x ≠ '\x0c' := fun he => absurd (he ▸ h) (by decide)
  simp [isWsChar, h1, h2, h3, h4, h5, h6]

theorem accentTable_no_ws :
    ∀ t ∈ accentTable, isWsChar t.1 = false ∧ isWsChar t.2.1 = false ∧ isWsChar t.2.2 = false := by
  decide

theorem isWsChar_lowerChar (c : Char) : isWsChar (lowerChar c) = isWsChar c := by
  unfold lowerChar
  split
  · rename_i h
    simp only [isAsciiUpper, Bool.and_eq_true, decide_eq_true_eq] at h
    have hA : (65 : Nat) ≤ c.toNat := h.1
    have hZ : c.toNat ≤ 90 := h.2
    have ho : (Char.ofNat (c.toNat + 32)).toNat = c.toNat + 32 := toNat_ofNat_lt _ (by omega)
    rw [isWsChar_false_of_gt (by omega), isWsChar_false_of_gt (by omega)]
  · split
    · rename_i t hfind
      have ht := List.mem_of_find?_eq_some hfind
      have hc : t.1 = c := by
        have := List.find?_some hfind
        simpa using this
      rw [← hc]
      exact ((accentTable_no_ws t ht).2.2).trans ((accentTable_no_ws t ht).1).symm
    · rfl

theorem isWsChar_upperChar (c : Char) : isWsChar (upperChar c) = isWsChar c := by
  unfold upperChar
  split
  · rename_i h
    simp only [isAsciiLower, Bool.and_eq_true, decide_eq_true_eq] at h
    have hA : (97 : Nat) ≤ c.toNat := h.1
    have hZ : c.toNat ≤ 122 := h.2
    have ho : (Char.ofNat (c.toNat - 32)).toNat = c.toNat - 32 := toNat_ofNat_lt _ (by omega)
    rw [isWsChar_false_of_gt (by omega), isWsChar_false_of_gt (by omega)]
  · rfl

theorem isWsChar_stripAccChar (c : Char) : isWsChar (stripAccChar c) = isWsChar c := by
  unfold stripAccChar
  split
  · rename_i t hfind
    have ht := List.mem_of_find?_eq_some hfind
    have hc : t.1 = c := by
      have := List.find?_some hfind
      simpa using this
    rw [← hc]
    exact ((accentTable_no_ws t ht).2.1).trans ((accentTable_no_ws t ht).1).symm
  · rfl

/-- `str.title()` preserves the whitespace mask of the string. -/
theorem pyTitleGo_mask : ∀ (l : Str) (b : Bool),
    (pyTitleGo b l).map isWsChar = l.map isWsChar := by
  intro l
  induction l with
  | nil => intro b; rfl
  | cons c rest ih =>
    intro b
    simp only [pyTitleGo]
    split
    · cases b
      · simp only [Bool.false_eq_true, if_false, List.map_cons, isWsChar_upperChar, ih]
      · simp only [if_true, List.map_cons, isWsChar_lowerChar, ih]
    · simp only [List.map_cons, ih]

theorem mask_length {x y : Str} (h : x.map isWsChar = y.map isWsChar) :
    x.length = y.length := by
  have := congrArg List.length h
  simpa using this

theorem noWs_of_mask {x y : Str} (h : x.map isWsChar = y.map isWsChar)
    (hy : ∀ c ∈ y, isWsChar c = false) : ∀ c ∈ x, isWsChar c = false := by
  intro c hc
  have h1 : isWsChar c ∈ x.map isWsChar := List.mem_map_of_mem _ hc
  rw [h] at h1
  obtain ⟨d, hd, hde⟩ := List.mem_map.1 h1
  rw [← hde]
  exact hy d hd

theorem noTwoWs_of_mask {x y : Str} (h : x.map isWsChar = y.map isWsChar)
    (hy : noTwoWs y) : noTwoWs x := by
  have hx : List.Chain' (fun a b => ¬(a = true ∧ b = true)) (x.map isWsChar) := by
    rw [h]
    exact (List.chain'_map _).2 hy
  exact (List.chain'_map _).1 hx

theorem endsNonWs_of_mask {x y : Str} (h : x.map isWsChar = y.map isWsChar)
    (hy : endsNonWs y) : endsNonWs x := by
  obtain ⟨hne, hh, hl⟩ := hy
  refine ⟨?_, ?_, ?_⟩
  · intro hx
    rw [hx] at h
    exact hne (List.map_eq_nil_iff.1 h.symm)
  · intro a ha
    have h1 : (x.map isWsChar).head? = some (isWsChar a) := by
      rw [List.head?_map, ha]; rfl
    rw [h, List.head?_map] at h1
    cases hy' : y.head? with
    | none => rw [hy'] at h1; simp at h1
    | some d =>
      rw [hy'] at h1
      have h2 : isWsChar d = isWsChar a := by simpa using h1
      rw [← h2]
      exact hh d hy'
  · intro a ha
    have h1 : (x.map isWsChar).getLast? = some (isWsChar a) := by
      rw [List.getLast?_map, ha]; rfl
    rw [h, List.getLast?_map] at h1
    cases hy' : y.getLast? with
    | none => rw [hy'] at h1; simp at h1
    | some d =>
      rw [hy'] at h1
      have h2 : isWsChar d = isWsChar a := by simpa using h1
      rw [← h2]
      exact hl d hy'

/-! ## `str.strip()` structure (for C9) -/

theorem trimWs_map (f : Char → Char) (hf : ∀ c, isWsChar (f c) = isWsChar c) (x : Str) :
    trimWs (x.map f) = (trimWs x).map f := by
  have hpf : (isWsChar ∘ f) = isWsChar := funext hf
  rw [trimWs, trimWs, List.dropWhile_map, hpf, ← List.map_reverse, List.dropWhile_map, hpf,
    ← List.map_reverse]

theorem stripAcc_trimWs (x : Str) : trimWs (stripAcc x) = stripAcc (trimWs x) :=
  trimWs_map stripAccChar isWsChar_stripAccChar x

theorem toLower_trimWs (x : Str) : trimWs (toLowerStr x) = toLowerStr (trimWs x) :=
  trimWs_map lowerChar isWsChar_lowerChar x

theorem pkey_stripAcc_eq (x : Str) :
    pkey (stripAcc x) = toLowerStr (stripAcc (trimWs x)) := by
  rw [pkey, stripAcc_trimWs]

theorem trimWs_within (x : Str) : trimWs x <:+: x := stripEnds_within isWsChar x

theorem trimWs_idem (x : Str) : trimWs (trimWs x) = trimWs x := stripEnds_idem isWsChar x

theorem noTwoWs_trimWs {x : Str} (h : noTwoWs x) : noTwoWs (trimWs x) :=
  List.Chain'.infix h (trimWs_within x)

theorem endsNonWs_trimWs (x : Str) (h : trimWs x ≠ []) : endsNonWs (trimWs x) := by
  refine ⟨h, ?_, ?_⟩
  · intro a ha
    have h1 : ((x.dropWhile isWsChar).reverse.dropWhile isWsChar).reverse ≠ [] := h
    have hA : (x.dropWhile isWsChar).reverse.dropWhile isWsChar ≠ [] := by
      intro h0; exact h1 (by rw [h0]; rfl)
    obtain ⟨t, ht⟩ := List.dropWhile_suffix (l := (x.dropWhile isWsChar).reverse) isWsChar
    have hlast : ((x.dropWhile isWsChar).reverse).getLast? =
        ((x.dropWhile isWsChar).reverse.dropWhile isWsChar).getLast? := by
      conv_lhs => rw [← ht]
      rw [List.getLast?_append_of_ne_nil _ hA]
    have hx : trimWs x = ((x.dropWhile isWsChar).reverse.dropWhile isWsChar).reverse := rfl
    rw [hx, List.head?_reverse, ← hlast, List.getLast?_reverse] at ha
    exact head?_dropWhile_not isWsChar x a ha
  · intro a ha
    have hx : trimWs x = ((x.dropWhile isWsChar).reverse.dropWhile isWsChar).reverse := rfl
    rw [hx, List.getLast?_reverse] at ha
    exact head?_dropWhile_not isWsChar _ a ha

theorem endsNonWs_of_trimWs_eq {x : Str} (hne : x ≠ []) (h : trimWs x = x) :
    endsNonWs x := by
  have := endsNonWs_trimWs x (by rw [h]; exact hne)
  rwa [h] at this

theorem trimWs_append_space (x : Str) (h : trimWs x ≠ []) :
    trimWs (trimWs x ++ [' ']) = trimWs x := by
  have he := endsNonWs_trimWs x h
  have h1 : (trimWs x ++ [' ']).dropWhile isWsChar = trimWs x ++ [' '] := by
    apply dropWhile_eq_self_of_head
    intro a ha
    cases hy : trimWs x with
    | nil => exact absurd hy h
    | cons c cs =>
      rw [hy, List.cons_append, List.head?_cons] at ha
      have hca : c = a := Option.some.inj ha
      exact hca ▸ he.2.1 c (by rw [hy]; rfl)
  have h2 : (trimWs x ++ [' ']).reverse = ' ' :: (trimWs x).reverse := by
    rw [List.reverse_append]; rfl
  have h3 : ((trimWs x).reverse).dropWhile isWsChar = (trimWs x).reverse := by
    apply dropWhile_eq_self_of_head
    intro a ha
    rw [List.head?_reverse] at ha
    exact he.2.2 a ha
  rw [trimWs, h1, h2, List.dropWhile_cons, if_pos (by rfl), h3, List.reverse_reverse]

/-! ## Whitespace-run structure of joins and appends (for C9) -/

theorem noWs_noTwoWs {x : Str} (h : ∀ c ∈ x, isWsChar c = false) : noTwoWs x := by
  induction x with
  | nil => exact List.chain'_nil
  | cons c rest ih =>
    have hgoal : List.Chain' (fun a b => ¬(isWsChar a = true ∧ isWsChar b = true)) (c :: rest) := by
      rw [List.chain'_cons']
      refine ⟨?_, ih (fun d hd => h d (List.mem_cons_of_mem _ hd))⟩
      intro b _ hcon
      rw [h c (List.mem_cons_self _ _)] at hcon
      exact Bool.false_ne_true hcon.1
    exact hgoal

theorem noTwoWs_append_space {x y : Str} (hx : noTwoWs x) (hy : noTwoWs y)
    (hxe : ∀ a, x.getLast? = some a → isWsChar a = false)
    (hye : ∀ a, y.head? = some a → isWsChar a = false) :
    noTwoWs (x ++ ' ' :: y) := by
  have hgoal : List.Chain' (fun a b => ¬(isWsChar a = true ∧ isWsChar b = true))
      (x ++ ' ' :: y) := by
    rw [List.chain'_append]
    refine ⟨hx, ?_, ?_⟩
    · rw [List.chain'_cons']
      refine ⟨?_, hy⟩
      intro b hb hcon
      rw [hye b (Option.mem_def.1 hb)] at hcon
      exact Bool.false_ne_true hcon.2
    · intro a ha b hb hcon
      rw [hxe a (Option.mem_def.1 ha)] at hcon
      exact Bool.false_ne_true hcon.1
  exact hgoal

theorem endsNonWs_append_space {x y : Str} (hx : endsNonWs x) (hy : endsNonWs y) :
    endsNonWs (x ++ ' ' :: y) := by
  refine ⟨by simp, ?_, ?_⟩
  · intro a ha
    cases hxv : x with
    | nil => exact absurd hxv hx.1
    | cons c cs =>
      rw [hxv, List.cons_append, List.head?_cons] at ha
      have hca : c = a := Option.some.inj ha
      exact hca ▸ hx.2.1 c (by rw [hxv]; rfl)
  · intro a ha
    rw [List.getLast?_append_of_ne_nil _ (by simp), getLast?_cons_of_ne_nil hy.1] at ha
    exact hy.2.2 a ha

theorem joinSpace_noTwoWs (toks : List Str)
    (h : ∀ t ∈ toks, t ≠ [] ∧ ∀ c ∈ t, isWsChar c = false) :
    noTwoWs (joinSpace toks) := by
  induction toks with
  | nil => exact List.chain'_nil
  | cons t rest ih =>
    cases rest with
    | nil =>
      have ht := h t (List.mem_cons_self _ _)
      have hj : joinSpace [t] = t := by simp [joinSpace]
      rw [hj]
      exact noWs_noTwoWs ht.2
    | cons u rest2 =>
      rw [joinSpace_cons_cons]
      have ht := h t (List.mem_cons_self _ _)
      have hrest : ∀ v ∈ u :: rest2, v ≠ [] ∧ ∀ c ∈ v, isWsChar c = false :=
        fun v hv => h v (List.mem_cons_of_mem _ hv)
      have hJ := ih hrest
      have hends := joinSpace_endsNonWs (u :: rest2) (by simp)
        (fun v hv => endsNonWs_of_noWs (hrest v hv).1 (hrest v hv).2)
      exact noTwoWs_append_space (noWs_noTwoWs ht.2) hJ
        (fun a ha => ht.2 a (List.mem_of_mem_getLast? ha))
        (fun a ha => hends.2.1 a ha)

/-! ## Membership through `sorted(set(...))` (for C9) -/

theorem mem_insertSorted (x y : Str) : ∀ l : List Str,
    (y ∈ insertSorted x l ↔ y = x ∨ y ∈ l) := by
  intro l
  induction l with
  | nil => simp [insertSorted]
  | cons a rest ih =>
    simp only [insertSorted]
    by_cases hle : leStr x a = true
    · rw [if_pos hle]
      simp
    · rw [if_neg hle]
      simp only [List.mem_cons, ih]
      tauto

theorem mem_insertionSort (x : Str) : ∀ l : List Str,
    (x ∈ insertionSort l ↔ x ∈ l) := by
  intro l
  induction l with
  | nil => simp [insertionSort]
  | cons a rest ih =>
    simp only [insertionSort, mem_insertSorted, ih, List.mem_cons]

theorem mem_sortDedup (l : List Str) (x : Str) : x ∈ sortDedup l ↔ x ∈ l := by
  rw [sortDedup, mem_insertionSort, mem_dedupKeepFirst_iff]

theorem getLastD_mem (l : List Str) (h : l ≠ []) : l.getLastD [] ∈ l := by
  rw [List.getLastD_eq_getLast?]
  cases hg : l.getLast? with
  | none =>
    cases l with
    | nil => exact absurd rfl h
    | cons a rest => simp at hg
  | some d => simpa using List.mem_of_mem_getLast? hg

/-! ## Token counting across an interior separator (for C9) -/

theorem splitRunsGo_ne_nil_of_cur (p : Char → Bool) :
    ∀ (l cur : Str), cur ≠ [] → splitRunsGo p cur l ≠ [] := by
  intro l
  induction l with
  | nil => intro cur hc; simp [splitRunsGo, hc]
  | cons c rest ih =>
    intro cur hc
    simp only [splitRunsGo]
    by_cases hp : p c = true
    · rw [if_pos hp, if_neg hc]; simp
    · rw [if_neg hp]; exact ih _ (by simp)

theorem splitRunsGo_ne_nil (p : Char → Bool) :
    ∀ (l cur : Str), (∃ c ∈ l, p c = false) → splitRunsGo p cur l ≠ [] := by
  intro l
  induction l with
  | nil =>
    rintro cur ⟨c, hc, _⟩
    simp at hc
  | cons a rest ih =>
    rintro cur ⟨c, hc, hpc⟩
    simp only [splitRunsGo]
    by_cases hp : p a = true
    · rw [if_pos hp]
      have hcrest : c ∈ rest := by
        rcases List.mem_cons.1 hc with rfl | h
        · rw [hp] at hpc; exact absurd hpc (by simp)
        · exact h
      by_cases hcur : cur = []
      · rw [if_pos hcur]; exact ih [] ⟨c, hcrest, hpc⟩
      · rw [if_neg hcur]; simp
    · rw [if_neg hp]
      exact splitRunsGo_ne_nil_of_cur p rest _ (by simp)

theorem splitRunsGo_sep (p : Char → Bool) (w : Char) (hw : p w = true) :
    ∀ (xs cur ys : Str),
      splitRunsGo p cur (xs ++ w :: ys) =
        splitRunsGo p cur (xs ++ [w]) ++ splitRunsGo p [] ys := by
  intro xs
  induction xs with
  | nil =>
    intro cur ys
    simp only [List.nil_append, splitRunsGo, if_pos hw]
    by_cases hcur : cur = []
    · rw [if_pos hcur, if_pos hcur]
      simp [splitRunsGo]
    · rw [if_neg hcur, if_neg hcur]
      simp [splitRunsGo]
  | cons a xs2 ih =>
    intro cur ys
    simp only [List.cons_append, List.append_eq, splitRunsGo]
    by_cases hp : p a = true
    · rw [if_pos hp, if_pos hp]
      by_cases hcur : cur = []
      · rw [if_pos hcur, if_pos hcur, ih]
      · rw [if_neg hcur, if_neg hcur, ih]
        simp
    · rw [if_neg hp, if_neg hp, ih]

theorem two_tokens_of_interior_ws (a b : Str) (w : Char)
    (hw : isWsChar w = true)
    (ha : ∃ c ∈ a, isWsChar c = false) (hb : ∃ c ∈ b, isWsChar c = false) :
    2 ≤ (splitWs (a ++ w :: b)).length := by
  rw [splitWs, splitRuns, splitRunsGo_sep isWsChar w hw, List.length_append]
  have l1 : 0 < (splitRunsGo isWsChar [] (a ++ [w])).length := by
    rw [List.length_pos]
    exact splitRunsGo_ne_nil isWsChar (a ++ [w]) []
      (ha.imp fun c hc => ⟨List.mem_append_left _ hc.1, hc.2⟩)
  have l2 : 0 < (splitRunsGo isWsChar [] b).length := by
    rw [List.length_pos]
    exact splitRunsGo_ne_nil isWsChar b [] hb
  omega

theorem noWs_of_single_token (x : Str) (hfix : trimWs x = x)
    (hlen : (splitWs x).length ≤ 1) : ∀ c ∈ x, isWsChar c = false := by
  intro c hc
  cases hwc : isWsChar c with
  | false => rfl
  | true =>
    exfalso
    obtain ⟨a, b, rfl⟩ := List.append_of_mem hc
    have hends : endsNonWs (a ++ c :: b) := endsNonWs_of_trimWs_eq (by simp) hfix
    have hA : ∃ d ∈ a, isWsChar d = false := by
      cases a with
      | nil =>
        exfalso
        have hh := hends.2.1 c rfl
        rw [hwc] at hh
        exact absurd hh (by decide)
      | cons d ds =>
        refine ⟨d, List.mem_cons_self _ _, ?_⟩
        exact hends.2.1 d rfl
    have hB : ∃ d ∈ b, isWsChar d = false := by
      cases hgb : b.getLast? with
      | none =>
        have hbnil : b = [] := by
          cases b with
          | nil => rfl
          | cons d ds => simp at hgb
        subst hbnil
        have hl := hends.2.2 c (by rw [List.getLast?_append_of_ne_nil _ (by simp)]; rfl)
        rw [hwc] at hl
        exact absurd hl (by decide)
      | some e =>
        have hbne : b ≠ [] := by
          intro h0; rw [h0] at hgb; simp at hgb
        refine ⟨e, List.mem_of_mem_getLast? hgb, ?_⟩
        apply hends.2.2 e
        rw [List.getLast?_append_of_ne_nil _ (by simp), getLast?_cons_of_ne_nil hbne, hgb]
    have := two_tokens_of_interior_ws a b c hwc hA hB
    omega

/-! ## The normalized canonical-guess key always lands in the variant set -/

theorem key_mem_aliasVariantsFor (first0 last0 canonical : Str)
    (hB : trimWs (trimWs first0 ++ ' ' :: trimWs last0) = trimWs canonical)
    (hne : trimWs canonical ≠ [])
    (hnt : noTwoWs (trimWs canonical)) :
    pkey (stripAcc canonical) ∈ aliasVariantsFor first0 last0 := by
  have hcond : (decide (trimWs first0 = []) && decide (trimWs last0 = [])) = false := by
    cases hf : decide (trimWs first0 = []) with
    | false => rfl
    | true =>
      cases hl : decide (trimWs last0 = []) with
      | false => simp
      | true =>
        exfalso
        apply hne
        rw [← hB, of_decide_eq_true hf, of_decide_eq_true hl]
        rfl
  have hmaske : (toLowerStr (stripAcc (trimWs canonical))).map isWsChar =
      (trimWs canonical).map isWsChar := by
    rw [toLowerStr, stripAcc, List.map_map, List.map_map]
    apply List.map_congr_left
    intro c _
    show isWsChar (lowerChar (stripAccChar c)) = isWsChar c
    rw [isWsChar_lowerChar, isWsChar_stripAccChar]
  have hene : toLowerStr (stripAcc (trimWs canonical)) ≠ [] := by
    intro h0
    apply hne
    rw [toLowerStr, stripAcc] at h0
    exact List.map_eq_nil_iff.1 (List.map_eq_nil_iff.1 h0)
  have hetrim : trimWs (toLowerStr (stripAcc (trimWs canonical))) =
      toLowerStr (stripAcc (trimWs canonical)) := by
    rw [toLower_trimWs, stripAcc_trimWs, trimWs_idem]
  have hent : noTwoWs (toLowerStr (stripAcc (trimWs canonical))) := noTwoWs_of_mask hmaske hnt
  have hecol : collapseWs (toLowerStr (stripAcc (trimWs canonical))) =
      toLowerStr (stripAcc (trimWs canonical)) := collapseWs_id _ hent
  unfold aliasVariantsFor
  dsimp only
  rw [if_neg (fun hcc => Bool.false_ne_true (hcond ▸ hcc))]
  rw [hB, pkey_stripAcc_eq, mem_sortDedup]
  refine List.mem_map.2 ⟨toLowerStr (stripAcc (trimWs canonical)), ?_, ?_⟩
  · refine List.mem_filter.2 ⟨?_, ?_⟩
    · refine List.mem_append_right _ ?_
      refine List.mem_flatMap.2 ⟨trimWs canonical, ?_, ?_⟩
      · exact List.mem_append_left _ (List.mem_append_left _
          (List.mem_append_left _ (List.mem_singleton.2 rfl)))
      · simp
    · rw [hetrim]
      simp [hene]
  · rw [hecol, hetrim]

theorem guessKey_mem_two_tok (toks : List Str)
    (hsound : ∀ t ∈ toks, t ≠ [] ∧ ∀ c ∈ t, isWsChar c = false)
    (hlen : 2 ≤ toks.length) :
    pkey (stripAcc (pyTitle (joinSpace toks.dropLast) ++ ' ' :: pyTitle (toks.getLastD []))) ∈
      aliasVariantsFor (pyTitle (joinSpace toks.dropLast)) (pyTitle (toks.getLastD [])) := by
  have hInit : toks.dropLast ≠ [] := by
    intro h0
    have hdl := List.length_dropLast toks
    rw [h0] at hdl
    simp only [List.length_nil] at hdl
    omega
  have hInitSound : ∀ t ∈ toks.dropLast, t ≠ [] ∧ ∀ c ∈ t, isWsChar c = false :=
    fun t ht => hsound t ((List.dropLast_sublist toks).mem ht)
  have htl : toks.getLastD [] ∈ toks :=
    getLastD_mem toks (by intro h0; rw [h0] at hlen; simp at hlen)
  have htlSound := hsound _ htl
  have hJ_ends : endsNonWs (joinSpace toks.dropLast) :=
    joinSpace_endsNonWs _ hInit
      (fun t ht => endsNonWs_of_noWs (hInitSound t ht).1 (hInitSound t ht).2)
  have hJ_nt : noTwoWs (joinSpace toks.dropLast) := joinSpace_noTwoWs _ hInitSound
  have hf_ends : endsNonWs (pyTitle (joinSpace toks.dropLast)) :=
    endsNonWs_of_mask (pyTitleGo_mask _ false) hJ_ends
  have hf_nt : noTwoWs (pyTitle (joinSpace toks.dropLast)) :=
    noTwoWs_of_mask (pyTitleGo_mask _ false) hJ_nt
  have hl_nows : ∀ c ∈ pyTitle (toks.getLastD []), isWsChar c = false :=
    noWs_of_mask (pyTitleGo_mask _ false) htlSound.2
  have hl_ne : pyTitle (toks.getLastD []) ≠ [] := by
    intro h0
    apply htlSound.1
    have hlen2 : (pyTitle (toks.getLastD [])).length = (toks.getLastD []).length :=
      mask_length (pyTitleGo_mask (toks.getLastD []) false)
    rw [h0] at hlen2
    simp only [List.length_nil] at hlen2
    exact List.length_eq_zero.1 hlen2.symm
  have hl_ends : endsNonWs (pyTitle (toks.getLastD [])) := endsNonWs_of_noWs hl_ne hl_nows
  have hc_ends : endsNonWs
      (pyTitle (joinSpace toks.dropLast) ++ ' ' :: pyTitle (toks.getLastD [])) :=
    endsNonWs_append_space hf_ends hl_ends
  have hc_nt : noTwoWs
      (pyTitle (joinSpace toks.dropLast) ++ ' ' :: pyTitle (toks.getLastD [])) :=
    noTwoWs_append_space hf_nt (noWs_noTwoWs hl_nows)
      (fun a ha => hf_ends.2.2 a ha) (fun a ha => hl_ends.2.1 a ha)
  have hfixc := trimWs_eq_self hc_ends
  apply key_mem_aliasVariantsFor
  · rw [trimWs_eq_self hf_ends, trimWs_eq_self hl_ends]
  · rw [hfixc]
    simp
  · rw [hfixc]
    exact hc_nt

theorem guessKey_mem_one_tok (z : Str) (hz : noTwoWs z)
    (h : pkey (stripAcc (pyTitle z)) ≠ []) :
    pkey (stripAcc (pyTitle z)) ∈ aliasVariantsFor (pyTitle z) [] := by
  have hnt : noTwoWs (pyTitle z) := noTwoWs_of_mask (pyTitleGo_mask z false) hz
  have hne : trimWs (pyTitle z) ≠ [] := by
    intro h0
    apply h
    rw [pkey_stripAcc_eq, h0]
    rfl
  apply key_mem_aliasVariantsFor
  · have hz0 : trimWs ([] : Str) = [] := rfl
    rw [hz0]
    exact trimWs_append_space (pyTitle z) hne
  · exact hne
  · exact noTwoWs_trimWs hnt

set_option maxHeartbeats 1600000 in
set_option linter.constructorNameAsVariable false in
theorem guessKey_mem_variants (raw : Str)
    (h : pkey (stripAcc (parseNameGuess raw).canonical) ≠ []) :
    pkey (stripAcc (parseNameGuess raw).canonical) ∈
      aliasVariantsFor (parseNameGuess raw).first_name (parseNameGuess raw).last_name := by
  by_cases hc : ',' ∈ cleanDisplayName raw
  · by_cases hlen : 2 ≤ (splitWs (flipLastFirst (cleanDisplayName raw))).length
    · have hg : parseNameGuess raw =
          ⟨pyTitle (joinSpace (splitWs (flipLastFirst (cleanDisplayName raw))).dropLast),
           pyTitle ((splitWs (flipLastFirst (cleanDisplayName raw))).getLastD []),
           pyTitle (joinSpace (splitWs (flipLastFirst (cleanDisplayName raw))).dropLast) ++
             ' ' :: pyTitle ((splitWs (flipLastFirst (cleanDisplayName raw))).getLastD [])⟩ := by
        simp only [parseNameGuess]
        rw [if_pos hc]
        rw [if_pos hlen]
      rw [hg]
      dsimp only
      exact guessKey_mem_two_tok (splitWs (flipLastFirst (cleanDisplayName raw)))
        (fun t ht =>
          ⟨(splitRuns_sound isWsChar (flipLastFirst (cleanDisplayName raw)) t ht).1,
           (splitRuns_sound isWsChar (flipLastFirst (cleanDisplayName raw)) t ht).2.1⟩)
        hlen
    · have hg : parseNameGuess raw =
          ⟨pyTitle (flipLastFirst (cleanDisplayName raw)), [],
           pyTitle (flipLastFirst (cleanDisplayName raw))⟩ := by
        simp only [parseNameGuess]
        rw [if_pos hc, if_neg hlen]
      rw [hg] at h ⊢
      dsimp only at h ⊢
      have hcase : (∃ u, flipLastFirst (cleanDisplayName raw) = trimWs u) ∨
          flipLastFirst (cleanDisplayName raw) = cleanDisplayName (cleanDisplayName raw) := by
        unfold flipLastFirst
        dsimp only
        split
        · split
          · exact Or.inr rfl
          · exact Or.inl ⟨_, rfl⟩
        · exact Or.inr rfl
      have hflip : noTwoWs (flipLastFirst (cleanDisplayName raw)) := by
        rcases hcase with ⟨u, hu⟩ | hu
        · have hfix : trimWs (flipLastFirst (cleanDisplayName raw)) =
              flipLastFirst (cleanDisplayName raw) := by
            rw [hu]
            exact trimWs_idem u
          exact noWs_noTwoWs (noWs_of_single_token _ hfix (by omega))
        · rw [hu]
          exact noTwoWs_clean _
      exact guessKey_mem_one_tok (flipLastFirst (cleanDisplayName raw)) hflip h
  · by_cases hlen :
        2 ≤ (splitWs ((cleanDisplayName raw).filter (fun c => c ≠ '.'))).length
    · have hg : parseNameGuess raw =
          ⟨pyTitle (joinSpace
             (splitWs ((cleanDisplayName raw).filter (fun c => c ≠ '.'))).dropLast),
           pyTitle ((splitWs ((cleanDisplayName raw).filter (fun c => c ≠ '.'))).getLastD []),
           pyTitle (joinSpace
             (splitWs ((cleanDisplayName raw).filter (fun c => c ≠ '.'))).dropLast) ++
             ' ' :: pyTitle
               ((splitWs ((cleanDisplayName raw).filter (fun c => c ≠ '.'))).getLastD [])⟩ := by
        simp only [parseNameGuess]
        rw [if_neg hc, if_pos hlen]
      rw [hg]
      dsimp only
      exact guessKey_mem_two_tok
        (splitWs ((cleanDisplayName raw).filter (fun c => c ≠ '.')))
        (fun t ht =>
          ⟨(splitRuns_sound isWsChar ((cleanDisplayName raw).filter (fun c => c ≠ '.')) t ht).1,
           (splitRuns_sound isWsChar ((cleanDisplayName raw).filter (fun c => c ≠ '.')) t ht).2.1⟩)
        hlen
    · have hg : parseNameGuess raw =
          ⟨pyTitle (cleanDisplayName raw), [], pyTitle (cleanDisplayName raw)⟩ := by
        simp only [parseNameGuess]
        rw [if_neg hc, if_neg hlen]
      rw [hg] at h ⊢
      dsimp only at h ⊢
      exact guessKey_mem_one_tok (cleanDisplayName raw) (noTwoWs_clean raw) h

/-! ## The register pipeline preserves the guess-key invariant (C9) -/

theorem updateFirstP_mem (cond : Players.PProposal → Bool)
    (upd : Players.PProposal → Players.PProposal) :
    ∀ (l l2 : List Players.PProposal) (q : Players.PProposal),
      Players.updateFirstP cond upd l = some (l2, q) →
      ∀ x ∈ l2, x ∈ l ∨ ∃ p ∈ l, x = upd p := by
  intro l
  induction l with
  | nil =>
    intro l2 q h
    simp [Players.updateFirstP] at h
  | cons p rest ih =>
    intro l2 q h x hx
    simp only [Players.updateFirstP] at h
    by_cases hcp : cond p = true
    · rw [if_pos hcp] at h
      injection h with heq
      injection heq with h1 h2
      subst h1
      rcases List.mem_cons.1 hx with rfl | hx2
      · exact Or.inr ⟨p, List.mem_cons_self _ _, rfl⟩
      · exact Or.inl (List.mem_cons_of_mem _ hx2)
    · rw [if_neg hcp] at h
      cases hrec : Players.updateFirstP cond upd rest with
      | none =>
        rw [hrec] at h
        simp at h
      | some pr =>
        obtain ⟨l3, q3⟩ := pr
        rw [hrec] at h
        injection h with heq
        injection heq with h1 h2
        subst h1
        rcases List.mem_cons.1 hx with rfl | hx2
        · exact Or.inl (List.mem_cons_self _ _)
        · rcases ih l3 q3 hrec x hx2 with hin | ⟨p2, hp2, hx3⟩
          · exact Or.inl (List.mem_cons_of_mem _ hin)
          · exact Or.inr ⟨p2, List.mem_cons_of_mem _ hp2, hx3⟩

theorem mergeIntoP_keeps_inv (raw : Str) (aliases : List Str) (p0 : Players.PProposal)
    (hal : pkey (stripAcc (parseNameGuess raw).canonical) ≠ [] →
           pkey (stripAcc (parseNameGuess raw).canonical) ∈ aliases)
    (hp0 : ∀ s ∈ p0.raw_samples,
      pkey (stripAcc (parseNameGuess s).canonical) ≠ [] →
      pkey (stripAcc (parseNameGuess s).canonical) ∈ p0.aliases) :
    ∀ s ∈ (Players.mergeIntoP raw aliases p0).raw_samples,
      pkey (stripAcc (parseNameGuess s).canonical) ≠ [] →
      pkey (stripAcc (parseNameGuess s).canonical) ∈
        (Players.mergeIntoP raw aliases p0).aliases := by
  intro s hs hkey
  simp only [Players.mergeIntoP] at hs ⊢
  rw [mem_sortDedup, List.mem_append]
  by_cases hr : raw ∈ p0.raw_samples
  · rw [if_pos hr] at hs
    exact Or.inl (hp0 s hs hkey)
  · rw [if_neg hr] at hs
    rcases List.mem_append.1 hs with hs2 | hs2
    · exact Or.inl (hp0 s hs2 hkey)
    · obtain rfl : s = raw := List.mem_singleton.1 hs2
      exact Or.inr (hal hkey)

set_option maxHeartbeats 1600000 in
theorem registerP_aliasGuessInv (fresh : Nat) (raw : Str) (st : Players.PlayerState)
    (h : Players.aliasGuessInv st.queue) :
    Players.aliasGuessInv (Players.registerP fresh raw st).1.queue := by
  unfold Players.registerP
  dsimp only
  split
  · rename_i q p2 hup
    intro p hp s hs hkey
    rcases updateFirstP_mem _ _ st.queue q p2 hup p hp with hin | ⟨p0, hp0, rfl⟩
    · exact h p hin s hs hkey
    · exact mergeIntoP_keeps_inv raw _ p0
        (fun hk => guessKey_mem_variants raw hk) (h p0 hp0) s hs hkey
  · intro p hp s hs hkey
    rcases List.mem_append.1 hp with hin | hnew
    · exact h p hin s hs hkey
    · have hpe := List.mem_singleton.1 hnew
      rw [hpe] at hs ⊢
      replace hs : s ∈ [raw] := hs
      rw [List.mem_singleton.1 hs] at hkey ⊢
      exact guessKey_mem_variants raw hkey

theorem runRegP_aliasGuessInv (ops : List (Nat × Str)) :
    ∀ st : Players.PlayerState, Players.aliasGuessInv st.queue →
      Players.aliasGuessInv (Players.runRegP st ops).queue := by
  induction ops with
  | nil => intro st h; exact h
  | cons op rest ih =>
    intro st h
    obtain ⟨fresh, raw⟩ := op
    exact ih _ (registerP_aliasGuessInv fresh raw st h)

set_option maxHeartbeats 2000000 in
/-- C9 counterexample: registering the raw name `"J. Smith"` on an empty
queue creates a proposal recording the raw sample `"J. Smith"`, whose
normalized form (`normKey`, the lowercase accent-folded key of the cleaned
string) is `"j. smith"` — but the alias set, built from the parsed guess
`("J", "Smith")`, drops the dot and does not contain it.  So a proposal's
alias set is not a superset of the normalized forms of its raw samples. -/
theorem raw_sample_normkey_counterexample :
    ∃ p ∈ (Players.runRegP ⟨[], [], [], none⟩ [(0, str "J. Smith")]).queue,
      ∃ s ∈ p.raw_samples, normKey s ∉ p.aliases := by
  decide

/-- C9 corrected: across any sequence of `register_unmapped_player` calls
(creations and merges) from a queue satisfying the invariant — e.g. the
empty queue — every proposal's alias set contains, for every raw sample it
records, the normalized key of the title-cased canonical guess parsed from
that sample, whenever that key is nonempty.  The raw sample's own
normalized form is not guaranteed to be present (see the counterexample):
the superset property holds for the parsed-guess keys, not the raw keys. -/
theorem register_alias_guess_superset (st : Players.PlayerState)
    (ops : List (Nat × Str)) (h : Players.aliasGuessInv st.queue) :
    Players.aliasGuessInv (Players.runRegP st ops).queue :=
  runRegP_aliasGuessInv ops st h

set_option maxHeartbeats 4000000 in
theorem register_alias_guess_superset_witness :
    Players.aliasGuessInv
      (Players.runRegP ⟨[], [], [], none⟩ [(0, str "Jn Doe"), (1, str "Jn Doe")]).queue :=
  register_alias_guess_superset ⟨[], [], [], none⟩ [(0, str "Jn Doe"), (1, str "Jn Doe")]
    (fun p hp => absurd hp (List.not_mem_nil p))

end AliasCore
